import Mathlib

/-!
Verification of the call-graph analysis and docstring-rewriting core of the
Documentation-Writer repository (`src/call_graph_parsing.py`,
`src/docstring_writing.py`).

The Python code is shallowly embedded: the call graph becomes a structure of
node names with children/parents adjacency, the depth computation becomes a
fuelled functional version of the recursive `update_depth`, the AST visitor
becomes a recursive function over a small syntax-tree type, and every `raise`
site becomes a constructor of an explicit error type carrying the data that
the Python exception message interpolates.
-/

namespace DocWriter

/-- The identity-relevant fields of `FunctionNode`: `__eq__`/`__hash__`
compare name, owning file path and line number. -/
structure FunctionNode where
  name : String
  path : String
  lineno : Nat
  deriving DecidableEq, Repr

/-- Python exception model.  Each constructor corresponds to one `raise`
site of the embedded code, carrying the data interpolated into the message.
`PyKind` below records which Python exception class each site uses. -/
inductive PyError where
  /-- `CallResolver._resolve_deferred_calls`: more than one matching callee
  (`RuntimeError`), carrying the callee name, caller name and candidates. -/
  | ambiguousCall (calleeName : String) (caller : FunctionNode)
      (candidates : List FunctionNode) : PyError
  /-- `CallResolver._resolve_deferred_calls`: caller node missing from
  `node_to_callees` (`RuntimeError`). -/
  | callerNotFound (caller : FunctionNode) : PyError
  /-- `FileVisitor._get_function_name`: unsupported call shape
  (`RuntimeError`). -/
  | nameExtraction : PyError
  /-- `CallGraphNode._insert_new_docstring`: insert before
  `add_new_docstring` (`RuntimeError`). -/
  | notStaged : PyError
  /-- `CallGraphNode._insert_new_docstring`: invalid `into` target
  (`ValueError`). -/
  | invalidInto (into : String) : PyError
  /-- `CallGraphNode.add_new_docstring`: non-string docstring
  (`RuntimeError`). -/
  | nonStringDocstring : PyError
  /-- `CallGraphNode.add_function_summary`: non-string summary
  (`RuntimeError`). -/
  | nonStringSummary : PyError
  /-- `CallGraphNode._insert_new_docstring`: function header not found in
  the buffer (`RuntimeError`). -/
  | definitionNotFound (name : String) : PyError
  /-- `docstring_writing._traverse_by_depth_reversed`: some node has no
  depth computed (`RuntimeError`). -/
  | missingDepth : PyError
  /-- `depth_dict[depth]` lookup for an absent depth level (`KeyError`). -/
  | depthKeyMissing (depth : Nat) : PyError
  /-- `max(depth_dict.keys())` on an empty dict (`ValueError`). -/
  | maxOfEmpty : PyError
  deriving DecidableEq, Repr

/-- The Python exception class of an error. -/
inductive PyKind where
  | runtimeKind : PyKind
  | valueKind : PyKind
  | keyKind : PyKind
  deriving DecidableEq, Repr

/-- Which Python exception class each modelled `raise` site uses, read off
the source (`RuntimeError` everywhere except the `into` validation, which
raises `ValueError`, and the depth-dict lookup, which raises `KeyError`). -/
def PyError.kind : PyError → PyKind
  | .ambiguousCall .. => .runtimeKind
  | .callerNotFound .. => .runtimeKind
  | .nameExtraction => .runtimeKind
  | .notStaged => .runtimeKind
  | .invalidInto .. => .valueKind
  | .nonStringDocstring => .runtimeKind
  | .nonStringSummary => .runtimeKind
  | .definitionNotFound .. => .runtimeKind
  | .missingDepth => .runtimeKind
  | .depthKeyMissing .. => .keyKind
  | .maxOfEmpty => .valueKind

/-! ## Call graph (`CallGraph`, `CallGraphNode`)

`CallGraph.nodes` is a dict keyed by function name (insertion ordered), and
each `CallGraphNode` holds `children` / `parents` lists of node objects.
Since nodes are identified by name inside the graph, the embedding keeps the
ordered list of names together with name-indexed children/parents lists. -/

structure CGraph where
  names : List String
  ch : String → List String
  pa : String → List String

/-- The empty graph (`CallGraph.__init__`). -/
def emptyGraph : CGraph := ⟨[], fun _ => [], fun _ => []⟩

/-- `CallGraph._add_node`: insert a fresh node (empty children/parents)
unless a node of that name already exists. -/
def addNode (g : CGraph) (n : String) : CGraph :=
  if n ∈ g.names then g else { g with names := g.names ++ [n] }

/-- `CallGraphNode.add_child`: append `c` to the children of `p` and `p` to
the parents of `c` (the two mutations of the Python method). -/
def addChild (g : CGraph) (p c : String) : CGraph :=
  { g with
    ch := fun x => if x = p then g.ch p ++ [c] else g.ch x
    pa := fun x => if x = c then g.pa c ++ [p] else g.pa x }

/-- `CallGraph._add_edge`: ensure both nodes exist, then link them. -/
def addEdge (g : CGraph) (p c : String) : CGraph :=
  addChild (addNode (addNode g p) c) p c

/-- One step of the assembly loop in `CallGraph.parse_graph`: record the
caller node, then add an edge for each of its callees. -/
def addEntry (g : CGraph) (e : String × List String) : CGraph :=
  e.2.foldl (fun g' c => addEdge g' e.1 c) (addNode g e.1)

/-- The assembly loop of `CallGraph.parse_graph`, consuming the resolver's
caller-to-callees mapping in iteration order. -/
def buildGraph (entries : List (String × List String)) : CGraph :=
  entries.foldl addEntry emptyGraph

/-- `CallGraph.get_entrypoints`: nodes with no parents, in node order. -/
def entrypoints (g : CGraph) : List String :=
  g.names.filter (fun n => g.pa n = [])

/-- `CallGraph.get_endpoints`: nodes with no children, in node order. -/
def endpoints (g : CGraph) : List String :=
  g.names.filter (fun n => g.ch n = [])

/-- Per-node depth state (`CallGraphNode.depth`), `none` when undefined. -/
def Depths : Type := String → Option Nat

/-- Write one node's depth. -/
def setDepth (dm : Depths) (n : String) (d : Nat) : Depths :=
  fun x => if x = n then some d else dm x

/-- The update condition of `update_depth`:
`node.depth is None or node.depth < depth`. -/
def improves (dm : Depths) (n : String) (d : Nat) : Bool :=
  match dm n with
  | none => true
  | some d0 => decide (d0 < d)

/-- `update_depth` from `CallGraph._calculate_depths`: skip nodes already in
the walk-local visited set; otherwise, when the depth is undefined or
strictly smaller, record the new depth, mark the node visited and recurse
into its children at `depth + 1`.  The Python recursion terminates because
every nested call adds a fresh node to `visited`; the embedding makes that
explicit with a fuel argument, consumed once per nesting level, and
`calculateDepths` supplies fuel `g.names.length + 1`, which the completeness
proof below shows is never exhausted on well-formed graphs. -/
def updateDepth (g : CGraph) : Nat → String → Nat →
    List String × Depths → List String × Depths
  | 0, _, _, s => s
  | fuel + 1, node, depth, s =>
    if node ∈ s.1 then s
    else if improves s.2 node depth then
      (g.ch node).foldl (fun s' c => updateDepth g fuel c (depth + 1) s')
        (node :: s.1, setDepth s.2 node depth)
    else s

/-- The `for child in node.children` loop inside `update_depth`. -/
def updateList (g : CGraph) (fuel : Nat) (cs : List String) (depth : Nat)
    (s : List String × Depths) : List String × Depths :=
  cs.foldl (fun s' c => updateDepth g fuel c depth s') s

lemma updateDepth_succ (g : CGraph) (fuel : Nat) (node : String)
    (depth : Nat) (s : List String × Depths) :
    updateDepth g (fuel + 1) node depth s =
      if node ∈ s.1 then s
      else if improves s.2 node depth then
        updateList g fuel (g.ch node) (depth + 1)
          (node :: s.1, setDepth s.2 node depth)
      else s := rfl

lemma updateList_nil (g : CGraph) (fuel depth : Nat)
    (s : List String × Depths) : updateList g fuel [] depth s = s := rfl

lemma updateList_cons (g : CGraph) (fuel : Nat) (c : String)
    (rest : List String) (depth : Nat) (s : List String × Depths) :
    updateList g fuel (c :: rest) depth s =
      updateList g fuel rest depth (updateDepth g fuel c depth s) := rfl

/-- `CallGraph._calculate_depths`: reset all depths to `None`, then run one
depth-first walk per entrypoint, each with a fresh walk-local visited set,
the depth map persisting across walks. -/
def calculateDepths (g : CGraph) : Depths :=
  (entrypoints g).foldl
    (fun dm e => (updateDepth g (g.names.length + 1) e 0 ([], dm)).2)
    (fun _ => none)

/-- Well-formedness facts the assembled Python graph maintains: node names
are unique (a dict's keys), adjacency stays inside the graph, and names
absent from the graph have no adjacency. -/
def WFGraph (g : CGraph) : Prop :=
  g.names.Nodup ∧
    (∀ n ∈ g.names, (∀ c ∈ g.ch n, c ∈ g.names) ∧
      ∀ p ∈ g.pa n, p ∈ g.names) ∧
    ∀ n, n ∉ g.names → g.ch n = [] ∧ g.pa n = []

/-- A `children`-edge of the graph. -/
def Edge (g : CGraph) (a b : String) : Prop := b ∈ g.ch a

/-- `p` is a parent-to-node walk along `children` edges that starts at an
entrypoint and ends at `n`. -/
def IsEntryPath (g : CGraph) (p : List String) (n : String) : Prop :=
  ∃ h, p.head? = some h ∧ h ∈ entrypoints g ∧
    List.Chain' (Edge g) p ∧ p.getLast? = some n

/-- A node is reachable when some entry path leads to it. -/
def Reachable (g : CGraph) (n : String) : Prop := ∃ p, IsEntryPath g p n

/-- The operations `CallGraph.parse_graph` performs while assembling the
node/edge structure: `_add_node` for a caller, `_add_edge` for a call. -/
inductive GraphOp where
  | node (n : String) : GraphOp
  | edge (p c : String) : GraphOp

/-- Apply one assembly operation. -/
def applyOp (g : CGraph) : GraphOp → CGraph
  | .node n => addNode g n
  | .edge p c => addEdge g p c

/-- Edge symmetry: `B` occurs in `A`'s children exactly as often as `A`
occurs in `B`'s parents. -/
def EdgeSym (g : CGraph) : Prop :=
  ∀ x y, (g.ch x).count y = (g.pa y).count x

lemma edgeSym_addNode {g : CGraph} (h : EdgeSym g) (n : String) :
    EdgeSym (addNode g n) := by
  unfold addNode
  split <;> simpa using h

lemma edgeSym_addChild {g : CGraph} (h : EdgeSym g) (p c : String) :
    EdgeSym (addChild g p c) := by
  intro x y
  simp only [addChild]
  by_cases hx : x = p <;> by_cases hy : y = c <;>
    simp [hx, hy, List.count_append, h x y, h p y, h x c, h p c]

lemma edgeSym_applyOp {g : CGraph} (h : EdgeSym g) (op : GraphOp) :
    EdgeSym (applyOp g op) := by
  cases op with
  | node n => exact edgeSym_addNode h n
  | edge p c =>
    exact edgeSym_addChild (edgeSym_addNode (edgeSym_addNode h _) _) p c

lemma edgeSym_foldl {g : CGraph} (h : EdgeSym g) (ops : List GraphOp) :
    EdgeSym (ops.foldl applyOp g) := by
  induction ops generalizing g with
  | nil => exact h
  | cons op rest ih => exact ih (edgeSym_applyOp h op)

/-- C5.  After any sequence of node insertions and edge insertions starting
from the empty graph, every node `y` occurs in `x`'s children list exactly
as many times as `x` occurs in `y`'s parents list. -/
theorem c5_edge_symmetry (ops : List GraphOp) :
    EdgeSym (ops.foldl applyOp emptyGraph) := by
  refine edgeSym_foldl ?_ ops
  intro x y
  simp [emptyGraph]

instance (g : CGraph) (a b : String) : Decidable (Edge g a b) :=
  inferInstanceAs (Decidable (b ∈ g.ch a))

/-- C3.  A pure 2-cycle (`a` calls `b`, `b` calls `a`, nothing else calls
either, in either resolver iteration order): depth computation terminates
with both depths undefined and `get_entrypoints()` contains neither node
(it is empty). -/
theorem c3_two_cycle (a b : String) (l : List (String × List String))
    (hab : a ≠ b)
    (hl : l = [(a, [b]), (b, [a])] ∨ l = [(b, [a]), (a, [b])]) :
    entrypoints (buildGraph l) = [] ∧
      calculateDepths (buildGraph l) a = none ∧
      calculateDepths (buildGraph l) b = none := by
  have hba := Ne.symm hab
  have key : ∀ m : List (String × List String),
      entrypoints (buildGraph m) = [] →
      entrypoints (buildGraph m) = [] ∧
        calculateDepths (buildGraph m) a = none ∧
        calculateDepths (buildGraph m) b = none := by
    intro m hep
    exact ⟨hep, by simp [calculateDepths, hep], by simp [calculateDepths, hep]⟩
  rcases hl with rfl | rfl <;> apply key <;>
    simp [buildGraph, addEntry, addEdge, addNode, addChild, emptyGraph,
      entrypoints, hab, hba]

/-- Witness for C3 at the concrete two-node cycle. -/
theorem c3_two_cycle_witness :
    ("a" : String) ≠ "b" ∧
      (entrypoints (buildGraph [("a", ["b"]), ("b", ["a"])]) = [] ∧
        calculateDepths (buildGraph [("a", ["b"]), ("b", ["a"])]) "a" = none ∧
        calculateDepths (buildGraph [("a", ["b"]), ("b", ["a"])]) "b" = none) :=
  ⟨by decide, c3_two_cycle "a" "b" _ (by decide) (Or.inl rfl)⟩

/-! ## C1: depth versus longest entry path -/

/-- The property claimed of the computed depths: every node reachable from
an entrypoint carries a depth that is an upper bound over the lengths (in
edges) of all simple entry paths to it and is attained by one of them — the
longest-path characterisation — and unreachable nodes stay `None`. -/
def DepthIsLongest (g : CGraph) (dm : Depths) : Prop :=
  ∀ n ∈ g.names,
    (Reachable g n →
      ∃ d, dm n = some d ∧
        (∀ p, IsEntryPath g p n ∧ p.Nodup → p.length - 1 ≤ d) ∧
        (∃ p, (IsEntryPath g p n ∧ p.Nodup) ∧ p.length - 1 = d)) ∧
    (¬ Reachable g n → dm n = none)

/-- A graph `parse_graph` can assemble: `e` calls `a` and `b` (callee set
iterated as `b` then `a`), and `a` calls `b`. -/
def gDiamond : CGraph := buildGraph [("e", ["b", "a"]), ("a", ["b"]), ("b", [])]

/-- Counterexample to C1: in `gDiamond` the only entrypoint is `e` and the
single walk reaches `b` directly (depth 1) before it reaches `b` through
`a`, after which the walk-local visited set makes the second visit a no-op;
`b` keeps depth 1 although the longest entry path `e → a → b` has 2 edges. -/
theorem c1_counterexample : ¬ DepthIsLongest gDiamond (calculateDepths gDiamond) := by
  intro h
  have hreach : Reachable gDiamond "b" :=
    ⟨["e", "b"], "e", rfl, by decide, by rw [List.chain'_pair]; decide, rfl⟩
  obtain ⟨d, hd, hub, -⟩ := (h "b" (by decide)).1 hreach
  have hval : calculateDepths gDiamond "b" = some 1 := by decide
  rw [hval] at hd
  obtain rfl : d = 1 := by injection hd.symm
  have h2 := hub ["e", "a", "b"]
    ⟨⟨"e", rfl, by decide,
      by rw [List.chain'_cons, List.chain'_pair]; exact ⟨by decide, by decide⟩,
      rfl⟩, by decide⟩
  simp at h2

/-! ### Soundness of the depth computation

Every depth `update_depth` writes is the edge-length of some simple entry
path; the visited set of the active walk always contains the proper
prefix of the path that led to the current call. -/

/-- `n` is the endpoint of some simple entry path with `d` edges. -/
def SimpleEntryPathLen (g : CGraph) (n : String) (d : Nat) : Prop :=
  ∃ p, IsEntryPath g p n ∧ p.Nodup ∧ p.length = d + 1

/-- All recorded depths are lengths of simple entry paths. -/
def Sound (g : CGraph) (dm : Depths) : Prop :=
  ∀ x d, dm x = some d → SimpleEntryPathLen g x d

/-- Precondition of a nested `update_depth` call: either the node was
already visited by this walk, or there is a simple entry path of `depth`
edges ending at the node whose proper prefix has been visited. -/
def CallOk (g : CGraph) (v : List String) (node : String) (depth : Nat) :
    Prop :=
  node ∈ v ∨ ∃ p, IsEntryPath g p node ∧ p.Nodup ∧ p.length = depth + 1 ∧
    p.dropLast ⊆ v

lemma setDepth_same (dm : Depths) (n : String) (d : Nat) :
    setDepth dm n d n = some d := by simp [setDepth]

lemma setDepth_ne (dm : Depths) {x n : String} (h : x ≠ n) (d : Nat) :
    setDepth dm n d x = dm x := by simp [setDepth, h]

lemma callOk_mono {g : CGraph} {v w : List String} (hvw : v ⊆ w)
    {node : String} {depth : Nat} (h : CallOk g v node depth) :
    CallOk g w node depth := by
  rcases h with h | ⟨p, hp, hnd, hlen, hsub⟩
  · exact Or.inl (hvw h)
  · exact Or.inr ⟨p, hp, hnd, hlen, fun x hx => hvw (hsub hx)⟩

lemma mem_dropLast_or_last {p : List String} {x : String} (hx : x ∈ p)
    (hne : p ≠ []) : x ∈ p.dropLast ∨ some x = p.getLast? := by
  rw [← List.dropLast_append_getLast hne] at hx
  rcases List.mem_append.1 hx with h | h
  · exact Or.inl h
  · right
    rw [List.mem_singleton.1 h, List.getLast?_eq_getLast _ hne]

lemma isEntryPath_ne_nil {g : CGraph} {p : List String} {n : String}
    (hp : IsEntryPath g p n) : p ≠ [] := by
  obtain ⟨h, hh, -, -, -⟩ := hp
  intro hnil
  rw [hnil] at hh
  exact Option.noConfusion hh

/-- Extending the active path into a child yields a valid precondition for
the nested call. -/
lemma callOk_extend {g : CGraph} {v : List String} {node : String}
    {depth : Nat} {p : List String}
    (hp : IsEntryPath g p node) (hnd : p.Nodup) (hlen : p.length = depth + 1)
    (hsub : p.dropLast ⊆ v) {c : String} (hc : c ∈ g.ch node) :
    CallOk g (node :: v) c (depth + 1) := by
  have hne := isEntryPath_ne_nil hp
  obtain ⟨h, hh, hhe, hchain, hlast⟩ := hp
  have hpsub : ∀ x ∈ p, x ∈ node :: v := by
    intro x hx
    rcases mem_dropLast_or_last hx hne with h1 | h1
    · exact List.mem_cons_of_mem _ (hsub h1)
    · rw [hlast] at h1
      rw [Option.some_inj.1 h1]
      exact List.mem_cons_self _ _
  by_cases hcp : c ∈ p
  · exact Or.inl (hpsub c hcp)
  · refine Or.inr ⟨p ++ [c], ⟨h, ?_, hhe, ?_, ?_⟩, ?_, ?_, ?_⟩
    · cases p with
      | nil => exact absurd rfl hne
      | cons a t => simpa using hh
    · rw [List.chain'_append]
      refine ⟨hchain, List.chain'_singleton c, ?_⟩
      intro x hx y hy
      rw [hlast] at hx
      simp only [List.head?_cons, Option.mem_def, Option.some_inj] at hx hy
      subst hx
      subst hy
      exact hc
    · exact List.getLast?_concat p
    · simp [List.nodup_append, hnd, hcp]
    · simp [hlen]
    · rw [List.dropLast_concat]
      exact hpsub

/-- Soundness statement for `updateDepth` at a given fuel. -/
def DSound (g : CGraph) (fuel : Nat) : Prop :=
  ∀ node depth v dm, Sound g dm → CallOk g v node depth →
    Sound g (updateDepth g fuel node depth (v, dm)).2 ∧
      v ⊆ (updateDepth g fuel node depth (v, dm)).1

/-- Soundness statement for `updateList` at a given fuel. -/
def LSound (g : CGraph) (fuel : Nat) : Prop :=
  ∀ cs depth v dm, Sound g dm → (∀ c ∈ cs, CallOk g v c depth) →
    Sound g (updateList g fuel cs depth (v, dm)).2 ∧
      v ⊆ (updateList g fuel cs depth (v, dm)).1

lemma lsound_of_dsound {g : CGraph} {fuel : Nat} (hd : DSound g fuel) :
    LSound g fuel := by
  intro cs
  induction cs with
  | nil => intro depth v dm hs _; exact ⟨hs, fun x hx => hx⟩
  | cons c rest ih =>
    intro depth v dm hs hok
    rw [updateList_cons]
    obtain ⟨hs1, hv1⟩ := hd c depth v dm hs (hok c (List.mem_cons_self _ _))
    obtain ⟨hs2, hv2⟩ := ih depth _ _ hs1
      (fun c' hc' => callOk_mono hv1 (hok c' (List.mem_cons_of_mem _ hc')))
    exact ⟨hs2, fun x hx => hv2 (hv1 hx)⟩

lemma dsound (g : CGraph) : ∀ fuel, DSound g fuel := by
  intro fuel
  induction fuel with
  | zero => intro node depth v dm hs _; exact ⟨hs, fun x hx => hx⟩
  | succ fuel ih =>
    intro node depth v dm hs hok
    rw [updateDepth_succ]
    by_cases hv : node ∈ v
    · simp only [hv, if_true]
      exact ⟨hs, fun x hx => hx⟩
    · simp only [hv, if_false]
      by_cases himp : improves dm node depth
      · simp only [himp, if_true]
        rcases hok with hok | ⟨p, hp, hnd, hlen, hsub⟩
        · exact absurd hok hv
        · have hs' : Sound g (setDepth dm node depth) := by
            intro x d hx
            by_cases hxn : x = node
            · subst hxn
              rw [setDepth_same] at hx
              exact ⟨p, hp, hnd, by rw [hlen, Option.some_inj.1 hx]⟩
            · rw [setDepth_ne dm hxn] at hx
              exact hs x d hx
          obtain ⟨hs2, hv2⟩ := lsound_of_dsound ih (g.ch node) (depth + 1)
            (node :: v) (setDepth dm node depth) hs'
            (fun c hc => callOk_extend hp hnd hlen hsub hc)
          exact ⟨hs2, fun x hx => hv2 (List.mem_cons_of_mem _ hx)⟩
      · simp only [himp, if_false]
        exact ⟨hs, fun x hx => hx⟩

/-- All depths present after `calculateDepths` are simple-entry-path
lengths. -/
lemma calculateDepths_sound (g : CGraph) : Sound g (calculateDepths g) := by
  unfold calculateDepths
  have main : ∀ es : List String, (∀ e ∈ es, e ∈ entrypoints g) →
      ∀ dm, Sound g dm →
      Sound g (es.foldl
        (fun dm' e => (updateDepth g (g.names.length + 1) e 0 ([], dm')).2)
        dm) := by
    intro es
    induction es with
    | nil => intro _ dm hs; exact hs
    | cons e rest ih =>
      intro hes dm hs
      refine ih (fun x hx => hes x (List.mem_cons_of_mem _ hx)) _ ?_
      have hok : CallOk g [] e 0 := by
        refine Or.inr ⟨[e], ⟨e, rfl, hes e (List.mem_cons_self _ _),
          List.chain'_singleton e, rfl⟩, List.nodup_singleton e, rfl, ?_⟩
        simp
      exact (dsound g (g.names.length + 1) e 0 [] dm hs hok).1
  refine main _ (fun e he => he) _ ?_
  intro x d hx
  exact Option.noConfusion hx

/-! ### Completeness of the depth computation

When the graph is well formed the fuel `g.names.length + 1` never runs
out, every walk leaves the node it was called on with a defined depth,
and depth-definedness is closed under children, so every reachable node
ends with a defined depth. -/

/-- Depth-definedness is monotone along `updateDepth`. -/
def DMono (g : CGraph) (fuel : Nat) : Prop :=
  ∀ node depth (s : List String × Depths) (x : String), s.2 x ≠ none →
    (updateDepth g fuel node depth s).2 x ≠ none

/-- Depth-definedness is monotone along `updateList`. -/
def LMono (g : CGraph) (fuel : Nat) : Prop :=
  ∀ cs depth (s : List String × Depths) (x : String), s.2 x ≠ none →
    (updateList g fuel cs depth s).2 x ≠ none

lemma lmono_of_dmono {g : CGraph} {fuel : Nat} (hd : DMono g fuel) :
    LMono g fuel := by
  intro cs
  induction cs with
  | nil => intro _ s x hx; exact hx
  | cons c rest ih =>
    intro depth s x hx
    rw [updateList_cons]
    exact ih depth _ x (hd c depth s x hx)

lemma dmono (g : CGraph) : ∀ fuel, DMono g fuel := by
  intro fuel
  induction fuel with
  | zero => intro _ _ s x hx; exact hx
  | succ fuel ih =>
    intro node depth s x hx
    rw [updateDepth_succ]
    by_cases hv : node ∈ s.1
    · simpa [hv] using hx
    · by_cases himp : improves s.2 node depth
      · simp only [hv, if_false, himp, if_true]
        refine lmono_of_dmono ih _ _ _ x ?_
        by_cases hxn : x = node
        · subst hxn
          simp [setDepth_same]
        · simpa [setDepth_ne _ hxn] using hx
      · simpa [hv, himp] using hx

/-- The depths newly defined by a call have all their children defined in
the final map. -/
def NewClosed (g : CGraph) (dm dm' : Depths) : Prop :=
  ∀ x, dm x = none → dm' x ≠ none → ∀ c ∈ g.ch x, dm' c ≠ none

lemma newClosed_refl (g : CGraph) (dm : Depths) : NewClosed g dm dm :=
  fun _ h h' => absurd h h'

lemma newClosed_trans {g : CGraph} {dm0 dm1 dm2 : Depths}
    (h21 : ∀ x, dm1 x ≠ none → dm2 x ≠ none)
    (h01 : NewClosed g dm0 dm1) (h12 : NewClosed g dm1 dm2) :
    NewClosed g dm0 dm2 := by
  intro x hx0 hx2 c hc
  by_cases hx1 : dm1 x = none
  · exact h12 x hx1 hx2 c hc
  · exact h21 c (h01 x hx0 hx1 c hc)

/-- State facts preserved by a call: the visited set grows, stays
duplicate-free, stays inside the graph and stays depth-defined, and every
newly defined node has its children defined. -/
def Post (g : CGraph) (v : List String) (dm : Depths)
    (r : List String × Depths) : Prop :=
  v ⊆ r.1 ∧ r.1.Nodup ∧ (∀ x ∈ r.1, x ∈ g.names) ∧
    (∀ x ∈ r.1, r.2 x ≠ none) ∧ NewClosed g dm r.2

/-- Progress statement for `updateDepth`. -/
def DProg (g : CGraph) (fuel : Nat) : Prop :=
  ∀ node depth v dm, v.Nodup → (∀ x ∈ v, x ∈ g.names) →
    (∀ x ∈ v, dm x ≠ none) → node ∈ g.names →
    g.names.length + 1 ≤ fuel + v.length →
    Post g v dm (updateDepth g fuel node depth (v, dm)) ∧
      (updateDepth g fuel node depth (v, dm)).2 node ≠ none

/-- Progress statement for `updateList`. -/
def LProg (g : CGraph) (fuel : Nat) : Prop :=
  ∀ cs depth v dm, v.Nodup → (∀ x ∈ v, x ∈ g.names) →
    (∀ x ∈ v, dm x ≠ none) → (∀ c ∈ cs, c ∈ g.names) →
    g.names.length + 1 ≤ fuel + v.length →
    Post g v dm (updateList g fuel cs depth (v, dm)) ∧
      ∀ c ∈ cs, (updateList g fuel cs depth (v, dm)).2 c ≠ none

lemma length_le_of_nodup_subset {v w : List String} (hnd : v.Nodup)
    (hsub : v ⊆ w) : v.length ≤ w.length :=
  (hnd.subperm hsub).length_le

lemma lprog_of_dprog {g : CGraph} {fuel : Nat} (hd : DProg g fuel) :
    LProg g fuel := by
  intro cs
  induction cs with
  | nil =>
    intro depth v dm hnd hvn hvd _ _
    exact ⟨⟨fun x hx => hx, hnd, hvn, hvd, newClosed_refl g dm⟩,
      fun c hc => absurd hc (List.not_mem_nil c)⟩
  | cons c rest ih =>
    intro depth v dm hnd hvn hvd hcs hfuel
    rw [updateList_cons]
    obtain ⟨⟨hsub1, hnd1, hvn1, hvd1, hnc1⟩, hcdef⟩ :=
      hd c depth v dm hnd hvn hvd (hcs c (List.mem_cons_self _ _)) hfuel
    have hfuel1 : g.names.length + 1 ≤
        fuel + (updateDepth g fuel c depth (v, dm)).1.length :=
      le_trans hfuel (by
        have := length_le_of_nodup_subset hnd hsub1
        omega)
    obtain ⟨⟨hsub2, hnd2, hvn2, hvd2, hnc2⟩, hrest⟩ := ih depth _ _ hnd1 hvn1
      hvd1 (fun c' hc' => hcs c' (List.mem_cons_of_mem _ hc')) hfuel1
    have hmono : ∀ x,
        (updateDepth g fuel c depth (v, dm)).2 x ≠ none →
        (updateList g fuel rest depth
          (updateDepth g fuel c depth (v, dm))).2 x ≠ none :=
      fun x hx => lmono_of_dmono (dmono g fuel) rest depth _ x hx
    refine ⟨⟨fun x hx => hsub2 (hsub1 hx), hnd2, hvn2, hvd2,
      newClosed_trans hmono hnc1 hnc2⟩, ?_⟩
    intro c' hc'
    rcases List.mem_cons.1 hc' with rfl | hc'
    · exact hmono c' hcdef
    · exact hrest c' hc'

lemma improves_of_none {dm : Depths} {node : String} {depth : Nat}
    (h : dm node = none) : improves dm node depth = true := by
  simp [improves, h]

lemma dprog {g : CGraph} (hwf : WFGraph g) : ∀ fuel, DProg g fuel := by
  intro fuel
  induction fuel with
  | zero =>
    intro node depth v dm hnd hvn hvd _ hfuel
    exfalso
    have := length_le_of_nodup_subset hnd (fun x hx => hvn x hx)
    omega
  | succ fuel ih =>
    intro node depth v dm hnd hvn hvd hnames hfuel
    rw [updateDepth_succ]
    by_cases hv : node ∈ v
    · simp only [hv, if_true]
      exact ⟨⟨fun x hx => hx, hnd, hvn, hvd, newClosed_refl g dm⟩, hvd node hv⟩
    · simp only [hv, if_false]
      by_cases himp : improves dm node depth
      · simp only [himp, if_true]
        have hnd' : (node :: v).Nodup := List.nodup_cons.2 ⟨hv, hnd⟩
        have hvn' : ∀ x ∈ node :: v, x ∈ g.names := by
          intro x hx
          rcases List.mem_cons.1 hx with rfl | hx
          · exact hnames
          · exact hvn x hx
        have hvd' : ∀ x ∈ node :: v, setDepth dm node depth x ≠ none := by
          intro x hx
          rcases List.mem_cons.1 hx with rfl | hx
          · simp [setDepth_same]
          · have hxn : x ≠ node := fun h => hv (h ▸ hx)
            rw [setDepth_ne _ hxn]
            exact hvd x hx
        have hch : ∀ c ∈ g.ch node, c ∈ g.names :=
          (hwf.2.1 node hnames).1
        have hfuel' : g.names.length + 1 ≤ fuel + (node :: v).length := by
          simp only [List.length_cons]
          omega
        obtain ⟨⟨hsub, hndr, hvnr, hvdr, hncr⟩, hchdef⟩ :=
          lprog_of_dprog ih (g.ch node) (depth + 1) (node :: v)
            (setDepth dm node depth) hnd' hvn' hvd' hch hfuel'
        refine ⟨⟨fun x hx => hsub (List.mem_cons_of_mem _ hx),
          hndr, hvnr, hvdr, ?_⟩, ?_⟩
        · intro x hx0 hx2 c hc
          by_cases hxn : x = node
          · subst hxn
            exact hchdef c hc
          · exact hncr x (by rw [setDepth_ne _ hxn]; exact hx0) hx2 c hc
        · exact hvdr node (hsub (List.mem_cons_self _ _))
      · simp only [himp, if_false]
        have hdef : dm node ≠ none := by
          intro h
          rw [improves_of_none h] at himp
          exact himp rfl
        exact ⟨⟨fun x hx => hx, hnd, hvn, hvd, newClosed_refl g dm⟩, hdef⟩

/-- Depth-definedness closed under children edges. -/
def Closed (g : CGraph) (dm : Depths) : Prop :=
  ∀ x, dm x ≠ none → ∀ c ∈ g.ch x, dm c ≠ none

lemma entrypoints_subset (g : CGraph) : entrypoints g ⊆ g.names := by
  intro x hx
  exact (List.mem_filter.1 hx).1

/-- After `calculateDepths` the depth map is children-closed and defined on
every entrypoint. -/
lemma calculateDepths_complete {g : CGraph} (hwf : WFGraph g) :
    Closed g (calculateDepths g) ∧
      ∀ e ∈ entrypoints g, calculateDepths g e ≠ none := by
  unfold calculateDepths
  have main : ∀ es : List String, (∀ e ∈ es, e ∈ entrypoints g) →
      ∀ dm, Closed g dm →
      Closed g (es.foldl
        (fun dm' e => (updateDepth g (g.names.length + 1) e 0 ([], dm')).2)
        dm) ∧
      (∀ e ∈ es, (es.foldl
        (fun dm' e => (updateDepth g (g.names.length + 1) e 0 ([], dm')).2)
        dm) e ≠ none) ∧
      (∀ x, dm x ≠ none → (es.foldl
        (fun dm' e => (updateDepth g (g.names.length + 1) e 0 ([], dm')).2)
        dm) x ≠ none) := by
    intro es
    induction es with
    | nil =>
      intro _ dm hc
      exact ⟨hc, fun e he => absurd he (List.not_mem_nil e),
        fun x hx => hx⟩
    | cons e rest ih =>
      intro hes dm hc
      have hene : e ∈ g.names :=
        entrypoints_subset g (hes e (List.mem_cons_self _ _))
      obtain ⟨⟨-, -, -, -, hnc⟩, hedef⟩ :=
        dprog hwf (g.names.length + 1) e 0 [] dm (List.nodup_nil)
          (fun x hx => absurd hx (List.not_mem_nil x))
          (fun x hx => absurd hx (List.not_mem_nil x)) hene (by omega)
      have hmono1 : ∀ x, dm x ≠ none →
          (updateDepth g (g.names.length + 1) e 0 ([], dm)).2 x ≠ none :=
        fun x hx => dmono g _ e 0 ([], dm) x hx
      have hc1 : Closed g (updateDepth g (g.names.length + 1) e 0
          ([], dm)).2 := by
        intro x hx c hcx
        by_cases hx0 : dm x = none
        · exact hnc x hx0 hx c hcx
        · exact hmono1 c (hc x hx0 c hcx)
      obtain ⟨hcf, hrest, hmono2⟩ :=
        ih (fun x hx => hes x (List.mem_cons_of_mem _ hx)) _ hc1
      refine ⟨hcf, ?_, fun x hx => hmono2 x (hmono1 x hx)⟩
      intro e' he'
      rcases List.mem_cons.1 he' with rfl | he'
      · exact hmono2 e' hedef
      · exact hrest e' he'
  obtain ⟨hcf, hep, -⟩ := main (entrypoints g) (fun e he => he) (fun _ => none)
    (fun x hx => absurd rfl hx)
  exact ⟨hcf, hep⟩

/-- Along any `children`-chain, definedness of the head forces definedness
of the last element when the map is closed. -/
lemma chain_defined {g : CGraph} {dm : Depths} (hc : Closed g dm) :
    ∀ (p : List String) (h x : String), List.Chain' (Edge g) p →
      p.head? = some h → dm h ≠ none → p.getLast? = some x → dm x ≠ none := by
  intro p
  induction p with
  | nil => intro h x _ hh; exact absurd hh (by simp)
  | cons a t ih =>
    intro h x hchain hh hdef hlast
    obtain rfl : h = a := by simpa using hh.symm
    cases t with
    | nil =>
      obtain rfl : x = h := by simpa using hlast.symm
      exact hdef
    | cons b t' =>
      rw [List.chain'_cons] at hchain
      have hb : dm b ≠ none := hc h hdef b hchain.1
      refine ih b x hchain.2 rfl hb ?_
      simpa [List.getLast?_cons_cons] using hlast

/-- Longest-path behaviour that actually holds on well-formed graphs:
reachable nodes get a depth that is the length of some simple entry path
(hence at most the longest one), unreachable nodes stay `None`. -/
lemma depth_characterisation {g : CGraph} (hwf : WFGraph g) (n : String) :
    (Reachable g n →
      ∃ d, calculateDepths g n = some d ∧ SimpleEntryPathLen g n d) ∧
    (¬ Reachable g n → calculateDepths g n = none) := by
  constructor
  · intro ⟨p, h, hh, hhe, hchain, hlast⟩
    obtain ⟨hcf, hep⟩ := calculateDepths_complete hwf
    have hdef : calculateDepths g n ≠ none :=
      chain_defined hcf p h n hchain hh (hep h hhe) hlast
    obtain ⟨d, hd⟩ := Option.ne_none_iff_exists'.1 hdef
    exact ⟨d, hd, calculateDepths_sound g n d hd⟩
  · intro hnr
    by_contra hne
    obtain ⟨d, hd⟩ := Option.ne_none_iff_exists'.1 hne
    obtain ⟨p, hp, -, -⟩ := calculateDepths_sound g n d hd
    exact hnr ⟨p, hp⟩

lemma wf_emptyGraph : WFGraph emptyGraph := by
  refine ⟨List.nodup_nil, ?_, ?_⟩
  · intro n hn
    exact absurd hn (List.not_mem_nil n)
  · intro n _
    exact ⟨rfl, rfl⟩

lemma mem_addNode_self (g : CGraph) (n : String) : n ∈ (addNode g n).names := by
  unfold addNode
  split
  · assumption
  · simp

lemma mem_addNode_of_mem {g : CGraph} {x : String} (hx : x ∈ g.names)
    (m : String) : x ∈ (addNode g m).names := by
  unfold addNode
  split
  · exact hx
  · simp [hx]

lemma addNode_adj (g : CGraph) (n : String) :
    (addNode g n).ch = g.ch ∧ (addNode g n).pa = g.pa := by
  unfold addNode
  split <;> exact ⟨rfl, rfl⟩

lemma wf_addNode {g : CGraph} (hwf : WFGraph g) (n : String) :
    WFGraph (addNode g n) := by
  unfold addNode
  split
  · exact hwf
  · rename_i hn
    obtain ⟨hnd, hadj, hoff⟩ := hwf
    refine ⟨by simp [List.nodup_append, hnd, hn], ?_, ?_⟩
    · intro x hx
      rcases List.mem_append.1 hx with hx | hx
      · obtain ⟨h1, h2⟩ := hadj x hx
        exact ⟨fun c hc => List.mem_append_left _ (h1 c hc),
          fun p hp => List.mem_append_left _ (h2 p hp)⟩
      · obtain rfl : x = n := List.mem_singleton.1 hx
        obtain ⟨e1, e2⟩ := hoff x hn
        rw [e1, e2]
        exact ⟨fun c hc => absurd hc (List.not_mem_nil c),
          fun p hp => absurd hp (List.not_mem_nil p)⟩
    · intro x hx
      exact hoff x (fun hmem => hx (List.mem_append_left _ hmem))

lemma wf_addChild {g : CGraph} (hwf : WFGraph g) {p c : String}
    (hp : p ∈ g.names) (hc : c ∈ g.names) : WFGraph (addChild g p c) := by
  obtain ⟨hnd, hadj, hoff⟩ := hwf
  refine ⟨hnd, ?_, ?_⟩
  · intro x hx
    constructor
    · intro y hy
      simp only [addChild] at hy
      by_cases hxp : x = p
      · simp only [hxp, if_true] at hy
        rcases List.mem_append.1 hy with hy | hy
        · exact (hadj p hp).1 y hy
        · rw [List.mem_singleton.1 hy]
          exact hc
      · simp only [hxp, if_false] at hy
        exact (hadj x hx).1 y hy
    · intro y hy
      simp only [addChild] at hy
      by_cases hxc : x = c
      · simp only [hxc, if_true] at hy
        rcases List.mem_append.1 hy with hy | hy
        · exact (hadj c hc).2 y hy
        · rw [List.mem_singleton.1 hy]
          exact hp
      · simp only [hxc, if_false] at hy
        exact (hadj x hx).2 y hy
  · intro x hx
    have hxp : x ≠ p := fun h => hx (h ▸ hp)
    have hxc : x ≠ c := fun h => hx (h ▸ hc)
    obtain ⟨e1, e2⟩ := hoff x hx
    constructor
    · simpa [addChild, hxp] using e1
    · simpa [addChild, hxc] using e2

lemma wf_addEdge {g : CGraph} (hwf : WFGraph g) (p c : String) :
    WFGraph (addEdge g p c) := by
  unfold addEdge
  refine wf_addChild (wf_addNode (wf_addNode hwf p) c) ?_ ?_
  · exact mem_addNode_of_mem (mem_addNode_self g p) c
  · exact mem_addNode_self (addNode g p) c

lemma wf_addEntry {g : CGraph} (hwf : WFGraph g) (e : String × List String) :
    WFGraph (addEntry g e) := by
  unfold addEntry
  have main : ∀ (cs : List String) (g' : CGraph), WFGraph g' →
      WFGraph (cs.foldl (fun g'' c => addEdge g'' e.1 c) g') := by
    intro cs
    induction cs with
    | nil => intro g' h; exact h
    | cons c rest ih => intro g' h; exact ih _ (wf_addEdge h e.1 c)
  exact main e.2 _ (wf_addNode hwf e.1)

/-- Every graph the assembly loop of `parse_graph` produces is well
formed. -/
lemma buildGraph_wf (entries : List (String × List String)) :
    WFGraph (buildGraph entries) := by
  unfold buildGraph
  have main : ∀ (es : List (String × List String)) (g : CGraph), WFGraph g →
      WFGraph (es.foldl addEntry g) := by
    intro es
    induction es with
    | nil => intro g h; exact h
    | cons e rest ih => intro g h; exact ih _ (wf_addEntry h e)
  exact main entries emptyGraph wf_emptyGraph

/-- C1 amended.  On every graph assembled by `parse_graph`, depth
computation gives each node reachable from some entrypoint a defined depth
equal to the edge-length of *some* simple entry path to it — hence at most,
but not necessarily equal to, the longest such path — and leaves every
unreachable node with undefined (`None`) depth. -/
theorem c1_amended_depth_behaviour (entries : List (String × List String))
    (n : String) :
    (Reachable (buildGraph entries) n →
      ∃ d, calculateDepths (buildGraph entries) n = some d ∧
        SimpleEntryPathLen (buildGraph entries) n d) ∧
    (¬ Reachable (buildGraph entries) n →
      calculateDepths (buildGraph entries) n = none) :=
  depth_characterisation (buildGraph_wf entries) n

/-- Witness for the amended C1 at a concrete reachable node. -/
theorem c1_amended_depth_behaviour_witness :
    ∃ d, calculateDepths
        (buildGraph [("e", ["b", "a"]), ("a", ["b"]), ("b", [])]) "b" =
        some d ∧
      SimpleEntryPathLen
        (buildGraph [("e", ["b", "a"]), ("a", ["b"]), ("b", [])]) "b" d :=
  (c1_amended_depth_behaviour [("e", ["b", "a"]), ("a", ["b"]), ("b", [])]
      "b").1
    ⟨["e", "b"], "e", rfl, by decide, by rw [List.chain'_pair]; decide, rfl⟩

/-! ## Source parser (`FileVisitor`)

The parts of the Python AST the visitor dispatches on: function
definitions, call expressions (with the shape of `node.func`), and all
other nodes, which `generic_visit` only recurses through. -/

/-- `dunders.DUNDER_METHODS` verbatim (duplicates included). -/
def DUNDER_METHODS : List String :=
  ["__init__", "__del__", "__repr__", "__str__", "__bytes__", "__format__",
   "__lt__", "__le__", "__eq__", "__ne__", "__gt__", "__ge__", "__hash__",
   "__bool__", "__getattr__", "__getattribute__", "__setattr__",
   "__setattr__", "__delattr__", "__dir__", "__iter__", "__next__",
   "__contains__", "__getitem__", "__setitem__", "__delitem__", "__len__",
   "__length_hint__", "__call__", "__contains__", "__eq__", "__ne__",
   "__gt__", "__ge__", "__lt__", "__le__", "__getitem__", "__setitem__",
   "__delitem__", "__iter__", "__next__", "__reversed__", "__contains__",
   "__reversed__", "__missing__", "__contains__", "__enter__", "__exit__",
   "__await__", "__aiter__", "__anext__", "__aenter__", "__aexit__",
   "__copy__", "__deepcopy__", "__reduce__", "__reduce_ex__",
   "__setstate__", "__getstate__", "__sizeof__", "__subclasshook__",
   "__post_init__"]

/-- The shape of `node.func` in a call expression. -/
inductive CallFunc where
  /-- `ast.Name`: a direct identifier call `foo()`. -/
  | ident (id : String) : CallFunc
  /-- `ast.Attribute`: a method-style call `obj.foo()`. -/
  | attr (attrName : String) : CallFunc
  /-- Any other shape, e.g. calling a subscript or a call result. -/
  | complexShape : CallFunc
  deriving DecidableEq, Repr

/-- Abstracted Python AST: the node kinds the visitor treats specially,
with every child subtree listed (for a call, the children include the
argument subtrees that `generic_visit` recurses into). -/
inductive Ast where
  | funcDef (name : String) (lineno : Nat) (body : List Ast) : Ast
  | callNode (func : CallFunc) (children : List Ast) : Ast
  | other (children : List Ast) : Ast

/-- `FileVisitor._get_function_name`. -/
def getFunctionName : CallFunc → Except PyError String
  | .ident id => .ok id
  | .attr a => .ok a
  | .complexShape => .error .nameExtraction

/-- The mutable state of one `FileVisitor`.  The head of `functionStack`
models the top (`[-1]`) of the Python list. -/
structure VisState where
  functionStack : List FunctionNode
  functionDefinitions : List FunctionNode
  deferredCalls : List (FunctionNode × String)
  deriving DecidableEq, Repr

/-- `set.add` on the insertion-ordered model of
`FileVisitor.function_definitions`. -/
def insertDef (defs : List FunctionNode) (fn : FunctionNode) :
    List FunctionNode :=
  if fn ∈ defs then defs else defs ++ [fn]

mutual

/-- One visitor dispatch (`visit`): `visit_FunctionDef` skips dunder
methods entirely (no recursion), otherwise records the definition, pushes
it on the stack, recurses into the body and pops; `visit_Call` records a
deferred call against the stack top when the stack is non-empty (raising
on unsupported call shapes) and then recurses; everything else just
recurses. -/
def visitNode (path : String) (st : VisState) : Ast → Except PyError VisState
  | .funcDef name lineno body =>
    if name ∈ DUNDER_METHODS then .ok st
    else
      match visitNodes path
        { functionStack := ⟨name, path, lineno⟩ :: st.functionStack
          functionDefinitions := insertDef st.functionDefinitions
            ⟨name, path, lineno⟩
          deferredCalls := st.deferredCalls } body with
      | .error e => .error e
      | .ok st2 => .ok { st2 with functionStack := st2.functionStack.tail }
  | .callNode func children =>
    match st.functionStack with
    | [] => visitNodes path st children
    | caller :: _ =>
      match getFunctionName func with
      | .error e => .error e
      | .ok fname =>
        visitNodes path
          { st with deferredCalls := st.deferredCalls ++ [(caller, fname)] }
          children
  | .other children => visitNodes path st children

/-- `generic_visit` over a list of child subtrees. -/
def visitNodes (path : String) (st : VisState) :
    List Ast → Except PyError VisState
  | [] => .ok st
  | a :: rest =>
    match visitNode path st a with
    | .error e => .error e
    | .ok st1 => visitNodes path st1 rest

end

/-- `FileVisitor.parse_visits` on one file: a fresh visitor walks the
module's top-level statements. -/
def parseVisits (path : String) (module : List Ast) :
    Except PyError VisState :=
  visitNodes path ⟨[], [], []⟩ module

/-- A file defining `F` at line 1 whose body is a nested function `g` at
line 2 whose body calls `h()`. -/
def nestedCallTree : Ast :=
  .funcDef "F" 1 [.funcDef "g" 2 [.callNode (.ident "h") []]]

/-- Counterexample to C4: the call `h()` occurs inside `F`'s body (within
the nested inner function `g`), but the visitor attributes it to the stack
top `g`, not to `F`: the recorded deferred calls are exactly
`[(g, "h")]`, which does not contain a pair with caller `F`. -/
theorem c4_counterexample :
    (parseVisits "f.py" [nestedCallTree]).map VisState.deferredCalls =
      .ok [(⟨"g", "f.py", 2⟩, "h")] ∧
    ((⟨"F", "f.py", 1⟩ : FunctionNode), "h") ∉
      [((⟨"g", "f.py", 2⟩ : FunctionNode), "h")] := by
  constructor
  · rfl
  · decide

mutual

/-- Spec-side attribution for the amended C4: collect the deferred calls of
a subtree given the innermost enclosing non-dunder function definition
(`cur`), attributing every call expression to that innermost function
(calls outside any function are not recorded; dunder definitions are
skipped without recursion, exactly as the visitor does). -/
def innerCalls (path : String) (cur : Option FunctionNode) :
    Ast → Except PyError (List (FunctionNode × String))
  | .funcDef name lineno body =>
    if name ∈ DUNDER_METHODS then .ok []
    else innerCallsList path (some ⟨name, path, lineno⟩) body
  | .callNode func children =>
    match cur with
    | none => innerCallsList path cur children
    | some caller =>
      match getFunctionName func with
      | .error e => .error e
      | .ok fname =>
        match innerCallsList path cur children with
        | .error e => .error e
        | .ok rest => .ok ((caller, fname) :: rest)
  | .other children => innerCallsList path cur children

/-- List version of `innerCalls`. -/
def innerCallsList (path : String) (cur : Option FunctionNode) :
    List Ast → Except PyError (List (FunctionNode × String))
  | [] => .ok []
  | a :: rest =>
    match innerCalls path cur a with
    | .error e => .error e
    | .ok l1 =>
      match innerCallsList path cur rest with
      | .error e => .error e
      | .ok l2 => .ok (l1 ++ l2)

end

/-- Refinement statement for one node: the visitor records, under any
state, exactly the calls `innerCalls` attributes to the stack top, appended
to the already recorded ones; the stack is restored. -/
def CharNode (path : String) (a : Ast) : Prop := ∀ st : VisState,
  match innerCalls path st.functionStack.head? a with
  | .error e => visitNode path st a = .error e
  | .ok l => ∃ defs2, visitNode path st a =
      .ok ⟨st.functionStack, defs2, st.deferredCalls ++ l⟩

/-- Refinement statement for a list of nodes. -/
def CharList (path : String) (as : List Ast) : Prop := ∀ st : VisState,
  match innerCallsList path st.functionStack.head? as with
  | .error e => visitNodes path st as = .error e
  | .ok l => ∃ defs2, visitNodes path st as =
      .ok ⟨st.functionStack, defs2, st.deferredCalls ++ l⟩

mutual

theorem charNode (path : String) (a : Ast) : CharNode path a := by
  cases a with
  | funcDef name lineno body =>
    intro st
    by_cases hd : name ∈ DUNDER_METHODS
    · simp only [innerCalls, visitNode, hd, if_true]
      exact ⟨st.functionDefinitions, by simp⟩
    · have hb := charList path body
        ⟨⟨name, path, lineno⟩ :: st.functionStack,
          insertDef st.functionDefinitions ⟨name, path, lineno⟩,
          st.deferredCalls⟩
      simp only [CharList, List.head?_cons] at hb
      simp only [innerCalls, visitNode, hd, if_false]
      cases hi : innerCallsList path (some ⟨name, path, lineno⟩) body with
      | error e =>
        simp only [hi] at hb ⊢
        simp only [hb]
      | ok l =>
        simp only [hi] at hb ⊢
        obtain ⟨defs2, heq⟩ := hb
        simp only [heq]
        exact ⟨defs2, by simp⟩
  | callNode func children =>
    intro st
    cases hs : st.functionStack with
    | nil =>
      have hc := charList path children st
      simp only [CharList, hs, List.head?_nil] at hc
      simp only [innerCalls, visitNode, hs, List.head?_nil]
      cases hi : innerCallsList path none children with
      | error e =>
        simp only [hi] at hc ⊢
        exact hc
      | ok l =>
        simp only [hi] at hc ⊢
        obtain ⟨defs2, heq⟩ := hc
        exact ⟨defs2, heq⟩
    | cons caller t =>
      simp only [innerCalls, visitNode, hs, List.head?_cons]
      cases hf : getFunctionName func with
      | error e => simp only [hf]
      | ok fname =>
        simp only [hf]
        have hc := charList path children
          ⟨st.functionStack, st.functionDefinitions,
            st.deferredCalls ++ [(caller, fname)]⟩
        simp only [CharList, hs, List.head?_cons] at hc
        cases hi : innerCallsList path (some caller) children with
        | error e =>
          simp only [hi] at hc ⊢
          exact hc
        | ok l =>
          simp only [hi] at hc ⊢
          obtain ⟨defs2, heq⟩ := hc
          refine ⟨defs2, ?_⟩
          rw [heq]
          simp
  | other children =>
    intro st
    have hc := charList path children st
    simp only [CharList] at hc
    simp only [innerCalls, visitNode]
    exact hc

theorem charList (path : String) (as : List Ast) : CharList path as := by
  cases as with
  | nil =>
    intro st
    simp only [innerCallsList, visitNodes]
    exact ⟨st.functionDefinitions, by simp⟩
  | cons a rest =>
    intro st
    have ha := charNode path a st
    simp only [CharNode] at ha
    simp only [innerCallsList, visitNodes]
    cases hi : innerCalls path st.functionStack.head? a with
    | error e =>
      simp only [hi] at ha ⊢
      simp only [ha]
    | ok l1 =>
      simp only [hi] at ha ⊢
      obtain ⟨defs2, heq⟩ := ha
      simp only [heq]
      have hr := charList path rest
        ⟨st.functionStack, defs2, st.deferredCalls ++ l1⟩
      simp only [CharList] at hr
      cases hj : innerCallsList path st.functionStack.head? rest with
      | error e =>
        simp only [hj] at hr ⊢
        exact hr
      | ok l2 =>
        simp only [hj] at hr ⊢
        obtain ⟨defs3, heq2⟩ := hr
        refine ⟨defs3, ?_⟩
        rw [heq2]
        simp

end

/-- C4 amended.  For every function definition processed by the parser,
each call expression is recorded as a deferred call whose caller is the
*innermost* enclosing non-dunder function definition (the top of the
nesting stack) — so a call inside a nested inner function `g` defined
within `F` is attributed to `g`, not to `F`, while calls directly in `F`'s
body are attributed to `F`. -/
theorem c4_amended_innermost_attribution (path : String) (a : Ast)
    (st : VisState) :
    (visitNode path st a).map VisState.deferredCalls =
      (innerCalls path st.functionStack.head? a).map
        (fun l => st.deferredCalls ++ l) := by
  have h := charNode path a st
  simp only [CharNode] at h
  cases hi : innerCalls path st.functionStack.head? a with
  | error e =>
    simp only [hi] at h
    simp [h, Except.map]
  | ok l =>
    simp only [hi] at h
    obtain ⟨defs2, heq⟩ := h
    simp [heq, Except.map]

/-! ## Call resolver (`CallResolver`)

`node_to_callees` is a dict from `FunctionNode` to a set of callee
`FunctionNode`s, modelled as an insertion-ordered association list whose
values are insertion-ordered duplicate-free lists. -/

/-- The resolver's mapping type. -/
abbrev CalleeMap : Type := List (FunctionNode × List FunctionNode)

/-- The keys of the mapping, in dict iteration (insertion) order. -/
def mapKeys (m : CalleeMap) : List FunctionNode := m.map Prod.fst

/-- `CallResolver._add_function_definition`: point the node at an empty
callee set (a dict assignment: an existing key keeps its position). -/
def addFunctionDefinition (m : CalleeMap) (fn : FunctionNode) : CalleeMap :=
  if fn ∈ mapKeys m then
    m.map (fun e => if e.1 = fn then (fn, []) else e)
  else m ++ [(fn, [])]

/-- `set.add` on a callee set. -/
def insertCallee (cs : List FunctionNode) (c : FunctionNode) :
    List FunctionNode :=
  if c ∈ cs then cs else cs ++ [c]

/-- `self.node_to_callees[caller_node].add(callee_node)`. -/
def addCallee (m : CalleeMap) (caller callee : FunctionNode) : CalleeMap :=
  m.map (fun e => if e.1 = caller then (e.1, insertCallee e.2 callee) else e)

/-- The candidate scan of `_resolve_deferred_calls`: all registered nodes
whose name equals the deferred callee name, in dict order. -/
def matchingCallees (m : CalleeMap) (calleeName : String) :
    List FunctionNode :=
  (mapKeys m).filter (fun node => node.name == calleeName)

/-- One iteration of the loop in `_resolve_deferred_calls`: more than one
match aborts with the ambiguity error; exactly one match adds the callee to
the caller's set (raising if the caller is unregistered); zero matches are
silently skipped. -/
def resolveDeferredOne (m : CalleeMap) (call : FunctionNode × String) :
    Except PyError CalleeMap :=
  let matching := matchingCallees m call.2
  if matching.length > 1 then
    .error (.ambiguousCall call.2 call.1 matching)
  else
    match matching with
    | [callee] =>
      if call.1 ∈ mapKeys m then .ok (addCallee m call.1 callee)
      else .error (.callerNotFound call.1)
    | _ => .ok m

/-- The loop of `_resolve_deferred_calls` over all deferred calls; a raise
aborts the remaining iterations. -/
def resolveLoop (m : CalleeMap) :
    List (FunctionNode × String) → Except PyError CalleeMap
  | [] => .ok m
  | call :: rest =>
    match resolveDeferredOne m call with
    | .error e => .error e
    | .ok m' => resolveLoop m' rest

/-- The per-file accumulation step of `CallResolver.resolve_calls`:
parse the file, register every collected definition, then append every
collected deferred call. -/
def processFile (acc : CalleeMap × List (FunctionNode × String))
    (file : String × List Ast) :
    Except PyError (CalleeMap × List (FunctionNode × String)) :=
  match parseVisits file.1 file.2 with
  | .error e => .error e
  | .ok vst =>
    .ok (vst.functionDefinitions.foldl addFunctionDefinition acc.1,
      acc.2 ++ vst.deferredCalls)

/-- The file loop of `resolve_calls`. -/
def processFiles (acc : CalleeMap × List (FunctionNode × String)) :
    List (String × List Ast) →
    Except PyError (CalleeMap × List (FunctionNode × String))
  | [] => .ok acc
  | file :: rest =>
    match processFile acc file with
    | .error e => .error e
    | .ok acc' => processFiles acc' rest

/-- `CallResolver.resolve_calls`: two-phase protocol — first parse every
file, registering definitions and accumulating deferred calls globally,
then resolve all deferred calls. -/
def resolveCalls (files : List (String × List Ast)) :
    Except PyError CalleeMap :=
  match processFiles ([], []) files with
  | .error e => .error e
  | .ok acc => resolveLoop acc.1 acc.2

/-- C2.  For a deferred call `(caller, calleeName)` handled while the
caller is registered (which `resolve_calls` always guarantees, see C9):
zero matching definitions leave the mapping unchanged; exactly one match
adds exactly that record to the caller's callee set; more than one match
fails immediately — also aborting the remaining loop iterations — with the
ambiguity error carrying the callee name, the caller, and all candidate
definitions. -/
theorem c2_resolution_cases (m : CalleeMap) (caller : FunctionNode)
    (calleeName : String) (hreg : caller ∈ mapKeys m) :
    (matchingCallees m calleeName = [] →
      resolveDeferredOne m (caller, calleeName) = .ok m) ∧
    (∀ c, matchingCallees m calleeName = [c] →
      resolveDeferredOne m (caller, calleeName) =
        .ok (addCallee m caller c)) ∧
    ((matchingCallees m calleeName).length > 1 →
      (resolveDeferredOne m (caller, calleeName) =
        .error (.ambiguousCall calleeName caller
          (matchingCallees m calleeName)) ∧
      ∀ rest, resolveLoop m ((caller, calleeName) :: rest) =
        .error (.ambiguousCall calleeName caller
          (matchingCallees m calleeName)))) := by
  refine ⟨?_, ?_, ?_⟩
  · intro hz
    simp [resolveDeferredOne, hz]
  · intro c hone
    simp [resolveDeferredOne, hone, hreg]
  · intro hgt
    have hone : resolveDeferredOne m (caller, calleeName) =
        .error (.ambiguousCall calleeName caller
          (matchingCallees m calleeName)) := by
      simp [resolveDeferredOne, hgt]
    refine ⟨hone, ?_⟩
    intro rest
    simp [resolveLoop, hone]

/-- Two same-named definitions in different files, a registered caller. -/
def ambFoo1 : FunctionNode := ⟨"foo", "a.py", 1⟩

/-- The second same-named definition. -/
def ambFoo2 : FunctionNode := ⟨"foo", "b.py", 1⟩

/-- The caller of the ambiguous call. -/
def ambCaller : FunctionNode := ⟨"main", "c.py", 1⟩

/-- Witness for C2 at a concrete three-node mapping: the ambiguous branch
fires with both candidates listed. -/
theorem c2_resolution_cases_witness :
    resolveDeferredOne [(ambFoo1, []), (ambFoo2, []), (ambCaller, [])]
        (ambCaller, "foo") =
      .error (.ambiguousCall "foo" ambCaller [ambFoo1, ambFoo2]) :=
  ((c2_resolution_cases [(ambFoo1, []), (ambFoo2, []), (ambCaller, [])]
      ambCaller "foo" (by decide)).2.2 (by decide)).1

/-! ## C9: the caller of every deferred call is always registered -/

/-- Visitor-state invariant: every stacked function and every recorded
caller is among the collected definitions. -/
def JInv (st : VisState) : Prop :=
  (∀ f ∈ st.functionStack, f ∈ st.functionDefinitions) ∧
    ∀ pr ∈ st.deferredCalls, pr.1 ∈ st.functionDefinitions

lemma mem_insertDef_self (defs : List FunctionNode) (fn : FunctionNode) :
    fn ∈ insertDef defs fn := by
  unfold insertDef
  split
  · assumption
  · simp

lemma mem_insertDef_of_mem {defs : List FunctionNode} {x : FunctionNode}
    (hx : x ∈ defs) (fn : FunctionNode) : x ∈ insertDef defs fn := by
  unfold insertDef
  split
  · exact hx
  · simp [hx]

/-- Invariant-preservation statement for one node. -/
def PresNode (path : String) (a : Ast) : Prop := ∀ st st',
  visitNode path st a = .ok st' → JInv st → JInv st'

/-- Invariant-preservation statement for a node list. -/
def PresList (path : String) (as : List Ast) : Prop := ∀ st st',
  visitNodes path st as = .ok st' → JInv st → JInv st'

mutual

theorem presNode (path : String) (a : Ast) : PresNode path a := by
  cases a with
  | funcDef name lineno body =>
    intro st st' hok hj
    simp only [visitNode] at hok
    by_cases hd : name ∈ DUNDER_METHODS
    · simp only [hd, if_true] at hok
      obtain rfl : st = st' := by injection hok
      exact hj
    · simp only [hd, if_false] at hok
      cases hb : visitNodes path
          ⟨⟨name, path, lineno⟩ :: st.functionStack,
            insertDef st.functionDefinitions ⟨name, path, lineno⟩,
            st.deferredCalls⟩ body with
      | error e => rw [hb] at hok; exact Except.noConfusion hok
      | ok st2 =>
        rw [hb] at hok
        simp only [] at hok
        have hj1 : JInv ⟨⟨name, path, lineno⟩ :: st.functionStack,
            insertDef st.functionDefinitions ⟨name, path, lineno⟩,
            st.deferredCalls⟩ := by
          constructor
          · intro f hf
            rcases List.mem_cons.1 hf with rfl | hf
            · exact mem_insertDef_self _ _
            · exact mem_insertDef_of_mem (hj.1 f hf) _
          · intro pr hpr
            exact mem_insertDef_of_mem (hj.2 pr hpr) _
        have hj2 := presList path body _ _ hb hj1
        obtain rfl : { st2 with functionStack := st2.functionStack.tail } =
            st' := by injection hok
        exact ⟨fun f hf => hj2.1 f (List.mem_of_mem_tail hf), hj2.2⟩
  | callNode func children =>
    intro st st' hok hj
    simp only [visitNode] at hok
    cases hs : st.functionStack with
    | nil =>
      rw [hs] at hok
      exact presList path children _ _ hok hj
    | cons caller t =>
      rw [hs] at hok
      cases hf : getFunctionName func with
      | error e => rw [hf] at hok; exact Except.noConfusion hok
      | ok fname =>
        rw [hf] at hok
        simp only [] at hok
        have hj1 : JInv ⟨caller :: t, st.functionDefinitions,
            st.deferredCalls ++ [(caller, fname)]⟩ := by
          constructor
          · intro f hf
            exact hj.1 f (by rw [hs]; exact hf)
          · intro pr hpr
            rcases List.mem_append.1 hpr with hpr | hpr
            · exact hj.2 pr hpr
            · obtain rfl : pr = (caller, fname) := List.mem_singleton.1 hpr
              exact hj.1 caller (by rw [hs]; exact List.mem_cons_self _ _)
        exact presList path children _ _ hok hj1
  | other children =>
    intro st st' hok hj
    simp only [visitNode] at hok
    exact presList path children _ _ hok hj

theorem presList (path : String) (as : List Ast) : PresList path as := by
  cases as with
  | nil =>
    intro st st' hok hj
    simp only [visitNodes] at hok
    obtain rfl : st = st' := by injection hok
    exact hj
  | cons a rest =>
    intro st st' hok hj
    simp only [visitNodes] at hok
    cases ha : visitNode path st a with
    | error e => rw [ha] at hok; exact Except.noConfusion hok
    | ok st1 =>
      rw [ha] at hok
      simp only [] at hok
      exact presList path rest _ _ hok (presNode path a _ _ ha hj)

end

/-- Parsing a file yields a state whose deferred callers are all among its
collected definitions. -/
lemma parseVisits_callers_defined {path : String} {module : List Ast}
    {vst : VisState} (h : parseVisits path module = .ok vst) :
    ∀ pr ∈ vst.deferredCalls, pr.1 ∈ vst.functionDefinitions :=
  (presList path module ⟨[], [], []⟩ vst h
    ⟨fun f hf => absurd hf (List.not_mem_nil f),
      fun pr hpr => absurd hpr (List.not_mem_nil pr)⟩).2

lemma mapKeys_map_replace (m : CalleeMap) (fn : FunctionNode) :
    mapKeys (m.map (fun e => if e.1 = fn then (fn, []) else e)) =
      mapKeys m := by
  unfold mapKeys
  rw [List.map_map]
  congr 1
  funext e
  by_cases h : e.1 = fn
  · simp [h]
  · simp [h]

lemma mem_keys_addFunctionDefinition_self (m : CalleeMap)
    (fn : FunctionNode) : fn ∈ mapKeys (addFunctionDefinition m fn) := by
  unfold addFunctionDefinition
  split
  · rw [mapKeys_map_replace]
    assumption
  · simp [mapKeys]

lemma mem_keys_addFunctionDefinition_of_mem {m : CalleeMap}
    {x : FunctionNode} (hx : x ∈ mapKeys m) (fn : FunctionNode) :
    x ∈ mapKeys (addFunctionDefinition m fn) := by
  unfold addFunctionDefinition
  split
  · rw [mapKeys_map_replace]
    exact hx
  · simp only [mapKeys, List.map_append]
    exact List.mem_append_left _ hx

lemma keys_foldl_addFunctionDefinition (defs : List FunctionNode) :
    ∀ m : CalleeMap,
      (∀ x ∈ mapKeys m,
        x ∈ mapKeys (defs.foldl addFunctionDefinition m)) ∧
      ∀ fn ∈ defs, fn ∈ mapKeys (defs.foldl addFunctionDefinition m) := by
  induction defs with
  | nil =>
    intro m
    exact ⟨fun x hx => hx, fun fn hfn => absurd hfn (List.not_mem_nil fn)⟩
  | cons d rest ih =>
    intro m
    simp only [List.foldl_cons]
    constructor
    · intro x hx
      exact (ih _).1 x (mem_keys_addFunctionDefinition_of_mem hx d)
    · intro fn hfn
      rcases List.mem_cons.1 hfn with rfl | hfn
      · exact (ih _).1 fn (mem_keys_addFunctionDefinition_self m fn)
      · exact (ih _).2 fn hfn

lemma mapKeys_addCallee (m : CalleeMap) (caller callee : FunctionNode) :
    mapKeys (addCallee m caller callee) = mapKeys m := by
  unfold addCallee mapKeys
  rw [List.map_map]
  congr 1
  funext e
  by_cases h : e.1 = caller
  · simp [h]
  · simp [h]

/-- Accumulator invariant of the file loop: every deferred caller is a
registered key. -/
def KInv (acc : CalleeMap × List (FunctionNode × String)) : Prop :=
  ∀ pr ∈ acc.2, pr.1 ∈ mapKeys acc.1

lemma processFile_kinv {acc acc' : CalleeMap × List (FunctionNode × String)}
    {file : String × List Ast} (h : processFile acc file = .ok acc')
    (hk : KInv acc) : KInv acc' := by
  unfold processFile at h
  cases hp : parseVisits file.1 file.2 with
  | error e => rw [hp] at h; exact Except.noConfusion h
  | ok vst =>
    rw [hp] at h
    simp only [] at h
    obtain rfl : (vst.functionDefinitions.foldl addFunctionDefinition acc.1,
        acc.2 ++ vst.deferredCalls) = acc' := by injection h
    intro pr hpr
    rcases List.mem_append.1 hpr with hpr | hpr
    · exact (keys_foldl_addFunctionDefinition _ _).1 pr.1 (hk pr hpr)
    · exact (keys_foldl_addFunctionDefinition _ _).2 pr.1
        (parseVisits_callers_defined hp pr hpr)

lemma processFiles_kinv :
    ∀ (files : List (String × List Ast))
      (acc acc' : CalleeMap × List (FunctionNode × String)),
      processFiles acc files = .ok acc' → KInv acc → KInv acc' := by
  intro files
  induction files with
  | nil =>
    intro acc acc' h hk
    obtain rfl : acc = acc' := by injection h
    exact hk
  | cons file rest ih =>
    intro acc acc' h hk
    simp only [processFiles] at h
    cases hf : processFile acc file with
    | error e => rw [hf] at h; exact Except.noConfusion h
    | ok acc1 =>
      rw [hf] at h
      simp only [] at h
      exact ih _ _ h (processFile_kinv hf hk)

/-- Recogniser for the `Caller node not found` raise site. -/
def isCallerNotFound {α : Type} : Except PyError α → Bool
  | .error (.callerNotFound _) => true
  | _ => false

lemma resolveLoop_no_callerNotFound :
    ∀ (calls : List (FunctionNode × String)) (m : CalleeMap),
      (∀ pr ∈ calls, pr.1 ∈ mapKeys m) →
      isCallerNotFound (resolveLoop m calls) = false := by
  intro calls
  induction calls with
  | nil => intro m _; rfl
  | cons call rest ih =>
    intro m hk
    simp only [resolveLoop]
    by_cases hgt : (matchingCallees m call.2).length > 1
    · simp [resolveDeferredOne, hgt, isCallerNotFound]
    · cases hm : matchingCallees m call.2 with
      | nil =>
        have hone : resolveDeferredOne m call = .ok m := by
          simp [resolveDeferredOne, hm]
        rw [hone]
        exact ih m (fun pr hpr => hk pr (List.mem_cons_of_mem _ hpr))
      | cons c t =>
        cases t with
        | nil =>
          have hreg : call.1 ∈ mapKeys m := hk call (List.mem_cons_self _ _)
          have hone : resolveDeferredOne m call =
              .ok (addCallee m call.1 c) := by
            simp [resolveDeferredOne, hm, hreg]
          rw [hone]
          refine ih _ (fun pr hpr => ?_)
          rw [mapKeys_addCallee]
          exact hk pr (List.mem_cons_of_mem _ hpr)
        | cons c2 t2 =>
          exfalso
          rw [hm] at hgt
          simp at hgt

lemma getFunctionName_error {f : CallFunc} {e : PyError}
    (h : getFunctionName f = .error e) : e = PyError.nameExtraction := by
  cases f with
  | ident id => exact Except.noConfusion h
  | attr a => exact Except.noConfusion h
  | complexShape =>
    simp only [getFunctionName] at h
    have h' : PyError.nameExtraction = e := by injection h
    exact h'.symm

/-- Error characterisation for one node: the visitor only ever raises the
name-extraction error. -/
def ErrNode (path : String) (a : Ast) : Prop := ∀ st e,
  visitNode path st a = .error e → e = PyError.nameExtraction

/-- Error characterisation for a node list. -/
def ErrList (path : String) (as : List Ast) : Prop := ∀ st e,
  visitNodes path st as = .error e → e = PyError.nameExtraction

mutual

theorem errNode (path : String) (a : Ast) : ErrNode path a := by
  cases a with
  | funcDef name lineno body =>
    intro st e h
    simp only [visitNode] at h
    by_cases hd : name ∈ DUNDER_METHODS
    · simp only [hd, if_true] at h
      exact Except.noConfusion h
    · simp only [hd, if_false] at h
      cases hb : visitNodes path
          ⟨⟨name, path, lineno⟩ :: st.functionStack,
            insertDef st.functionDefinitions ⟨name, path, lineno⟩,
            st.deferredCalls⟩ body with
      | error e' =>
        rw [hb] at h
        simp only [] at h
        obtain rfl : e' = e := by injection h
        exact errList path body _ _ hb
      | ok st2 => rw [hb] at h; exact Except.noConfusion h
  | callNode func children =>
    intro st e h
    simp only [visitNode] at h
    cases hs : st.functionStack with
    | nil =>
      rw [hs] at h
      exact errList path children _ _ h
    | cons caller t =>
      rw [hs] at h
      cases hf : getFunctionName func with
      | error e' =>
        rw [hf] at h
        simp only [] at h
        obtain rfl : e' = e := by injection h
        exact getFunctionName_error hf
      | ok fname =>
        rw [hf] at h
        simp only [] at h
        exact errList path children _ _ h
  | other children =>
    intro st e h
    simp only [visitNode] at h
    exact errList path children _ _ h

theorem errList (path : String) (as : List Ast) : ErrList path as := by
  cases as with
  | nil =>
    intro st e h
    simp only [visitNodes] at h
    exact Except.noConfusion h
  | cons a rest =>
    intro st e h
    simp only [visitNodes] at h
    cases ha : visitNode path st a with
    | error e' =>
      rw [ha] at h
      simp only [] at h
      obtain rfl : e' = e := by injection h
      exact errNode path a _ _ ha
    | ok st1 =>
      rw [ha] at h
      simp only [] at h
      exact errList path rest _ _ h

end

lemma processFiles_error :
    ∀ (files : List (String × List Ast))
      (acc : CalleeMap × List (FunctionNode × String)) (e : PyError),
      processFiles acc files = .error e → e = PyError.nameExtraction := by
  intro files
  induction files with
  | nil => intro acc e h; exact Except.noConfusion h
  | cons file rest ih =>
    intro acc e h
    simp only [processFiles] at h
    cases hf : processFile acc file with
    | error e' =>
      rw [hf] at h
      simp only [] at h
      have he : e' = e := by injection h
      subst he
      unfold processFile at hf
      cases hp : parseVisits file.1 file.2 with
      | error e2 =>
        rw [hp] at hf
        simp only [] at hf
        have h2 : e2 = e' := by injection hf
        subst h2
        exact errList file.1 file.2 _ _ hp
      | ok vst => rw [hp] at hf; exact Except.noConfusion hf
    | ok acc1 =>
      rw [hf] at h
      simp only [] at h
      exact ih _ _ h

/-! ## C10: depth-ordered traversal (`docstring_writing`) -/

/-- The `for depth in range(max_depth, -1, -1): yield depth_dict[depth]`
loop: collect the nodes at each depth from `maxD` down to `0`, raising the
`KeyError` of `depth_dict[depth]` when a level is empty. -/
def levelsDown (g : CGraph) (dm : Depths) : Nat → Except PyError (List (List String))
  | 0 =>
    let level := g.names.filter (fun n => dm n == some 0)
    if level.isEmpty then .error (.depthKeyMissing 0) else .ok [level]
  | d + 1 =>
    let level := g.names.filter (fun n => dm n == some (d + 1))
    if level.isEmpty then .error (.depthKeyMissing (d + 1))
    else
      match levelsDown g dm d with
      | .error e => .error e
      | .ok ls => .ok (level :: ls)

/-- `docstring_writing._traverse_by_depth_reversed`: if any node's depth is
undefined, raise before yielding anything (the generator body runs when its
first element is requested); otherwise group nodes by depth and yield the
groups from the maximum depth down to zero. -/
def traverseByDepthReversed (g : CGraph) (dm : Depths) :
    Except PyError (List (List String)) :=
  if g.names.any (fun n => (dm n).isNone) then .error .missingDepth
  else
    match (g.names.filterMap dm).max? with
    | none => .error .maxOfEmpty
    | some maxD => levelsDown g dm maxD

/-- The traversal loop of `DocstringWriter.__call__`, abstracted to the
order in which nodes are handed to the per-node docstring work: the
traversal error propagates (the `try` in the loop body only guards the
external text-generation call), so a traversal failure aborts the whole
pass with no node processed. -/
def docstringPass (g : CGraph) (dm : Depths) : Except PyError (List String) :=
  match traverseByDepthReversed g dm with
  | .error e => .error e
  | .ok levels => .ok levels.flatten

/-- C10.  If any node of the graph has undefined depth — as every node
unreachable from all entrypoints does, e.g. a pure 2-cycle — the
depth-ordered iteration raises `RuntimeError` before yielding any nodes,
and the docstring-writing pass aborts for the whole graph, processing no
node at all. -/
theorem c10_missing_depth_aborts_pass (g : CGraph) (dm : Depths)
    (h : ∃ n ∈ g.names, dm n = none) :
    traverseByDepthReversed g dm = .error .missingDepth ∧
      docstringPass g dm = .error .missingDepth := by
  obtain ⟨n, hn, hd⟩ := h
  have hany : g.names.any (fun n => (dm n).isNone) = true :=
    List.any_eq_true.2 ⟨n, hn, by simp [hd]⟩
  constructor
  · simp [traverseByDepthReversed, hany]
  · simp [docstringPass, traverseByDepthReversed, hany]

/-- Witness for C10 at a concrete assembled 2-cycle with its computed
depths. -/
theorem c10_missing_depth_aborts_pass_witness :
    traverseByDepthReversed (buildGraph [("x", ["y"]), ("y", ["x"])])
        (calculateDepths (buildGraph [("x", ["y"]), ("y", ["x"])])) =
      .error .missingDepth ∧
    docstringPass (buildGraph [("x", ["y"]), ("y", ["x"])])
        (calculateDepths (buildGraph [("x", ["y"]), ("y", ["x"])])) =
      .error .missingDepth :=
  c10_missing_depth_aborts_pass _ _ ⟨"x", by decide, by decide⟩

/-- C9.  In the full two-phase pipeline every deferred call's caller is
already registered in `node_to_callees` by the time
`_resolve_deferred_calls` runs, so the `Caller node not found` branch is
unreachable: `resolve_calls` never raises it, on any input file set. -/
theorem c9_caller_always_registered (files : List (String × List Ast)) :
    isCallerNotFound (resolveCalls files) = false := by
  unfold resolveCalls
  cases hp : processFiles ([], []) files with
  | error e =>
    have := processFiles_error files ([], []) e hp
    subst this
    rfl
  | ok acc =>
    refine resolveLoop_no_callerNotFound acc.2 acc.1 ?_
    exact processFiles_kinv files ([], []) acc hp
      (fun pr hpr => absurd hpr (List.not_mem_nil pr))

/-! ## Docstring mutator (`CallGraphNode` staging and text rewriting)

Buffers are `List Char`.  The fixed regular expression of
`_insert_new_docstring` is hand-translated into a deterministic scanner:
for this particular pattern every quantifier's extent is forced (the
character classes of adjacent pieces are disjoint), so the translation
needs no backtracking beyond the explicit alternative orders. -/

/-- The double-quote character. -/
def quoteD : Char := Char.ofNat 34

/-- The single-quote character. -/
def quoteS : Char := Char.ofNat 39

/-- The newline character. -/
def nlChar : Char := Char.ofNat 10

/-- `"""`. -/
def tqD : List Char := [quoteD, quoteD, quoteD]

/-- `'''`. -/
def tqS : List Char := [quoteS, quoteS, quoteS]

/-- Python `\s` on ASCII text: space, tab, newline, carriage return, form
feed, vertical tab. -/
def isPySpace (c : Char) : Bool :=
  c = ' ' || c = Char.ofNat 9 || c = nlChar || c = Char.ofNat 13 ||
    c = Char.ofNat 12 || c = Char.ofNat 11

/-- `[ \t]`, the indentation characters `textwrap.dedent` considers. -/
def isBlankChar (c : Char) : Bool := c = ' ' || c = Char.ofNat 9

/-- `[^)]` of the header pattern. -/
def notCloseParen (c : Char) : Bool := c ≠ ')'

/-- A space character (the only character `lstrip(' ')` strips). -/
def isSpaceChar (c : Char) : Bool := c = ' '

/-- Split a buffer at newline characters (`str.split("\n")`). -/
def splitLinesC : List Char → List (List Char)
  | [] => [[]]
  | c :: rest =>
    if c = nlChar then [] :: splitLinesC rest
    else
      match splitLinesC rest with
      | [] => [[c]]
      | l :: ls => (c :: l) :: ls

/-- `"\n".join`. -/
def joinLinesC : List (List Char) → List Char
  | [] => []
  | [l] => l
  | l :: ls => l ++ nlChar :: joinLinesC ls

/-- Longest common prefix of two character lists. -/
def commonPrefixC : List Char → List Char → List Char
  | [], _ => []
  | _, [] => []
  | a :: as, b :: bs => if a = b then a :: commonPrefixC as bs else []

/-- Models `textwrap.dedent`: whitespace-only lines are emptied, the common
leading `[ \t]` margin of the remaining lines is computed, and that margin
is stripped from every line that carries it. -/
def dedentC (s : List Char) : List Char :=
  let lines := (splitLinesC s).map
    (fun l => if l ≠ [] ∧ l.all isBlankChar then [] else l)
  let indents := (lines.filter (fun l => l ≠ [])).map
    (fun l => l.takeWhile isBlankChar)
  let margin :=
    match indents with
    | [] => []
    | i :: rest => rest.foldl commonPrefixC i
  joinLinesC (lines.map
    (fun l => if margin.isPrefixOf l then l.drop margin.length else l))

/-- `_ensure_triple_quotes`: add a leading `"""` (preceded by a newline
when missing) unless the text already opens with a triple quote, then add
a trailing `"""` (after a newline when missing) unless the updated text
already closes with one. -/
def ensureTripleQuotes (s : List Char) : List Char :=
  let s1 :=
    if tqD.isPrefixOf s || tqS.isPrefixOf s then s
    else tqD ++ (if s.head? = some nlChar then s else nlChar :: s)
  if tqD.isSuffixOf s1 || tqS.isSuffixOf s1 then s1
  else (if s1.getLast? = some nlChar then s1 else s1 ++ [nlChar]) ++ tqD

/-- Split a paragraph into its whitespace-separated words. -/
def splitWordsC : List Char → List (List Char)
  | [] => []
  | c :: rest =>
    if isPySpace c then splitWordsC rest
    else
      match splitWordsC rest with
      | [] => [[c]]
      | w :: ws =>
        match rest with
        | [] => [[c]]
        | r0 :: _ => if isPySpace r0 then [c] :: w :: ws else (c :: w) :: ws

/-- Greedy line packing of words under a width, every line prefixed by the
indent; the first word of a line is always placed. -/
def packWordsC (width : Nat) (ind : List Char) (cur : List Char) :
    List (List Char) → List (List Char)
  | [] => [cur]
  | w :: ws =>
    if cur.length + 1 + w.length ≤ width then
      packWordsC width ind (cur ++ ' ' :: w) ws
    else cur :: packWordsC width ind (ind ++ w) ws

/-- Models `textwrap.fill(paragraph, width, initial_indent=ind,
subsequent_indent=ind)` for the paragraphs this program feeds it:
whitespace runs separate words, lines are filled greedily, an empty
paragraph yields an empty result.  (Words longer than the width are placed
unbroken; the call sites use width 88 on short docstring lines.) -/
def fillC (para : List Char) (width : Nat) (ind : List Char) : List Char :=
  match splitWordsC para with
  | [] => []
  | w :: ws => joinLinesC (packWordsC width ind (ind ++ w) ws)

/-- The indentation string of `_insert_new_docstring`:
`(indent_size + col_offset)` spaces. -/
def indentStrC (indentSize col : Nat) : List Char :=
  List.replicate (indentSize + col) ' '

/-- The wrapped docstring: each staged line wrapped independently, the
results joined by newlines. -/
def wrapDocstring (staged : List Char) (width indentSize col : Nat) :
    List Char :=
  joinLinesC ((splitLinesC staged).map
    (fun para => fillC para width (indentStrC indentSize col)))

/-- The lazy `[\s\S]*?"""` scan: split at the first occurrence of the
triple quote, returning the content before it and the remainder after
it. -/
def findClose (tq : List Char) : List Char → Option (List Char × List Char)
  | [] => none
  | c :: rest =>
    if tq.isPrefixOf (c :: rest) then some ([], (c :: rest).drop tq.length)
    else
      match findClose tq rest with
      | some (content, r) => some (c :: content, r)
      | none => none

/-- One alternative of the optional docstring group:
`\s*"""[\s\S]*?"""` (or the `'''` variant), returning the matched span and
the remainder. -/
def matchTq (tq : List Char) (s : List Char) :
    Option (List Char × List Char) :=
  let ws := s.takeWhile isPySpace
  let s1 := s.drop ws.length
  if tq.isPrefixOf s1 then
    match findClose tq (s1.drop tq.length) with
    | some (content, rest) => some (ws ++ tq ++ content ++ tq, rest)
    | none => none
  else none

/-- Group 2 of the pattern: the `"""` alternative is tried before the
`'''` alternative; both failing, the group matches nothing. -/
def matchDocstringLit (s : List Char) : Option (List Char × List Char) :=
  match matchTq tqD s with
  | some r => some r
  | none => matchTq tqS s

/-- The optional return-annotation piece and the closing colon:
`\s*` has already been consumed; this models `(?:->\s*[^\s:][^\n]*?)?:`,
trying the annotation branch first exactly as the greedy option does. -/
def matchAnnColon (s : List Char) : Option (List Char × List Char) :=
  let tryArrow :=
    if ['-', '>'].isPrefixOf s then
      let s1 := s.drop 2
      let ws := s1.takeWhile isPySpace
      let s2 := s1.drop ws.length
      match s2 with
      | [] => none
      | c :: s3 =>
        if isPySpace c || c = ':' then none
        else
          let mid := s3.takeWhile (fun x => x ≠ ':' && x ≠ nlChar)
          match s3.drop mid.length with
          | ':' :: s5 => some ('-' :: '>' :: ws ++ c :: mid ++ [':'], s5)
          | _ => none
    else none
  match tryArrow with
  | some r => some r
  | none =>
    match s with
    | ':' :: rest => some ([':'], rest)
    | _ => none

/-- Attempt the whole pattern at the current position: the header group
`def\s+NAME\s*\([^)]*\)\s*(?:->\s*[^\s:][^\n]*?)?:` followed by the
optional docstring group.  Returns the header span, the optional docstring
span and the remainder. -/
def matchHere (name : List Char) (s : List Char) :
    Option (List Char × Option (List Char) × List Char) :=
  if ['d', 'e', 'f'].isPrefixOf s then
    let s1 := s.drop 3
    let ws1 := s1.takeWhile isPySpace
    if ws1 = [] then none
    else
      let s2 := s1.drop ws1.length
      if name.isPrefixOf s2 then
        let s3 := s2.drop name.length
        let ws2 := s3.takeWhile isPySpace
        let s4 := s3.drop ws2.length
        match s4 with
        | '(' :: s5 =>
          let params := s5.takeWhile notCloseParen
          match s5.drop params.length with
          | ')' :: s6 =>
            let ws3 := s6.takeWhile isPySpace
            match matchAnnColon (s6.drop ws3.length) with
            | none => none
            | some (annColon, s7) =>
              let header := 'd' :: 'e' :: 'f' :: ws1 ++ name ++ ws2 ++
                '(' :: params ++ ')' :: ws3 ++ annColon
              match matchDocstringLit s7 with
              | some (lit, s8) => some (header, some lit, s8)
              | none => some (header, none, s7)
          | _ => none
        | _ => none
      else none
  else none

/-- `re.search`: try the pattern at every position, left to right,
returning the text before the match, the header, the optional docstring
span and the remainder. -/
def searchHeader (name : List Char) :
    List Char → Option (List Char × List Char × Option (List Char) × List Char)
  | [] =>
    match matchHere name [] with
    | some (h, g2, rest) => some ([], h, g2, rest)
    | none => none
  | c :: rest =>
    match matchHere name (c :: rest) with
    | some (h, g2, r2) => some ([], h, g2, r2)
    | none =>
      match searchHeader name rest with
      | some (pre, h, g2, r) => some (c :: pre, h, g2, r)
      | none => none

/-- The splice of `_insert_new_docstring`: replace a matched docstring
span with a newline and the wrapped text, or insert them right after the
header; no match raises the definition-not-found error.  The Python guard
`if start and end:` (false for a zero start offset) is kept as written. -/
def insertDocstringIntoCode (name : List Char) (wrapped : List Char)
    (code : List Char) : Except PyError (List Char) :=
  match searchHeader name code with
  | none => .error (.definitionNotFound (String.mk name))
  | some (pre, header, g2, rest) =>
    match g2 with
    | some lit =>
      if (pre ++ header).length ≠ 0 ∧ (pre ++ header ++ lit).length ≠ 0 then
        .ok (pre ++ header ++ nlChar :: wrapped ++ rest)
      else .ok (pre ++ header ++ nlChar :: wrapped ++ lit ++ rest)
    | none => .ok (pre ++ header ++ nlChar :: wrapped ++ rest)

/-- The docstring-relevant state of a `CallGraphNode` together with its
three text buffers (own definition, owning class definition when any, and
owning file content). -/
structure DocNode where
  name : List Char
  colOffset : Nat
  newDocstring : Option (List Char)
  summary : Option (List Char)
  definition : List Char
  classDef : Option (List Char)
  fileContent : List Char
  deriving DecidableEq, Repr

/-- A dynamically-typed argument, to model the `isinstance(x, str)`
checks. -/
inductive PyVal where
  | pystr (s : List Char) : PyVal
  | nonString : PyVal
  deriving DecidableEq, Repr

/-- `CallGraphNode.add_new_docstring`: reject non-strings, then stage
`_ensure_triple_quotes(textwrap.dedent(text))`. -/
def addNewDocstring (node : DocNode) (v : PyVal) : Except PyError DocNode :=
  match v with
  | .nonString => .error .nonStringDocstring
  | .pystr s =>
    .ok { node with newDocstring := some (ensureTripleQuotes (dedentC s)) }

/-- `CallGraphNode.add_function_summary`. -/
def addFunctionSummary (node : DocNode) (v : PyVal) :
    Except PyError DocNode :=
  match v with
  | .nonString => .error .nonStringSummary
  | .pystr s => .ok { node with summary := some s }

/-- `CallGraphNode._insert_new_docstring` for one target buffer: the
staging check comes first, then the `into` validation, then the wrap and
the splice into the chosen buffer. -/
def insertNewDocstringInto (node : DocNode) (maxWidth indentSize : Nat)
    (into : String) : Except PyError DocNode :=
  match node.newDocstring with
  | none => .error .notStaged
  | some staged =>
    if into = "function" ∨ into = "class" ∨ into = "file" then
      let code :=
        if into = "function" then node.definition
        else if into = "class" then node.classDef.getD []
        else node.fileContent
      let wrapped := wrapDocstring staged maxWidth indentSize node.colOffset
      match insertDocstringIntoCode node.name wrapped code with
      | .error e => .error e
      | .ok newCode =>
        if into = "function" then .ok { node with definition := newCode }
        else if into = "class" then .ok { node with classDef := some newCode }
        else .ok { node with fileContent := newCode }
    else .error (.invalidInto into)

/-- `CallGraphNode.insert_new_docstring`: apply the staged text to the
function buffer, the class buffer (skipped when the node has no class),
and the file buffer, in that order; a raise propagates, leaving the
earlier buffers already rewritten. -/
def insertNewDocstring (node : DocNode) (maxWidth indentSize : Nat) :
    Except PyError DocNode :=
  match insertNewDocstringInto node maxWidth indentSize "function" with
  | .error e => .error e
  | .ok n1 =>
    match (match n1.classDef with
      | none => (.ok n1 : Except PyError DocNode)
      | some _ => insertNewDocstringInto n1 maxWidth indentSize "class") with
    | .error e => .error e
    | .ok n2 => insertNewDocstringInto n2 maxWidth indentSize "file"

/-! ### Re-parsing the mutated text (C6's round trip) -/

/-- Length of the leading run of spaces. -/
def lineIndentLen (l : List Char) : Nat :=
  (l.takeWhile isSpaceChar).length

/-- Drop leading empty lines. -/
def dropLeadingEmpties : List (List Char) → List (List Char)
  | [] => []
  | l :: ls => if l = [] then dropLeadingEmpties ls else l :: ls

/-- Drop trailing empty lines. -/
def dropTrailingEmpties (ls : List (List Char)) : List (List Char) :=
  (dropLeadingEmpties ls.reverse).reverse

/-- Models `inspect.cleandoc` (the cleaning `ast.get_docstring` applies) on
tab-free text: strip leading spaces from the first line, remove the
minimal space indentation of the remaining non-blank lines from every
later line, and drop leading and trailing blank lines. -/
def cleandocC (s : List Char) : List Char :=
  match splitLinesC s with
  | [] => []
  | first :: rest =>
    let contentLines := rest.filter (fun l => l.dropWhile isSpaceChar ≠ [])
    let rest' :=
      match (contentLines.map lineIndentLen).min? with
      | none => rest
      | some m => rest.map (fun l => l.drop m)
    joinLinesC (dropTrailingEmpties (dropLeadingEmpties
      (first.dropWhile isSpaceChar :: rest')))

/-- The visitor's `docstring.replace("\n", " ")`. -/
def flattenNl (s : List Char) : List Char :=
  s.map (fun c => if c = nlChar then ' ' else c)

/-- A triple-quoted string literal at the start of the given text, cleaned
as `ast.get_docstring` cleans docstrings and with newlines flattened to
spaces as `visit_FunctionDef` then does. -/
def extractDocstringLit (s : List Char) : Option (List Char) :=
  if tqD.isPrefixOf s then
    match findClose tqD (s.drop 3) with
    | some (content, _) => some (flattenNl (cleandocC content))
    | none => none
  else if tqS.isPrefixOf s then
    match findClose tqS (s.drop 3) with
    | some (content, _) => some (flattenNl (cleandocC content))
    | none => none
  else none

/-- Models re-parsing a rendered `def NAME(PARAMS):`-shaped function text:
the immediate triple-quoted string literal after the header colon, via
`extractDocstringLit`; `none` when there is no such docstring.  (The model
covers the canonical header shape this development manipulates: a `"def "`
prefix, a parameter list free of `)`, no return annotation.) -/
def parseDocstringOfDef (code : List Char) : Option (List Char) :=
  if ("def ".toList).isPrefixOf code then
    match code.dropWhile notCloseParen with
    | ')' :: ':' :: rest => extractDocstringLit (rest.dropWhile isPySpace)
    | _ => none
  else none

/-- The C6 round trip as claimed: start from a function text, stage
`"Hello"`, insert with width 88 and indent 4, and re-parse the resulting
function text; `none` when any stage raises. -/
def c6RoundTrip (defText : List Char) (fnName : List Char) (col : Nat) :
    Option (List Char) :=
  let node : DocNode := ⟨fnName, col, none, none, defText, none, defText⟩
  match addNewDocstring node (.pystr "Hello".toList) with
  | .error _ => none
  | .ok n1 =>
    match insertNewDocstring n1 88 4 with
    | .error _ => none
    | .ok n2 => parseDocstringOfDef n2.definition

/-- Counterexample to C6: `def f(x=(1,2)):` has no docstring, but the
parenthesis inside the default argument stops the header pattern's
`[^)]*` early, so no header matches anywhere in the text,
`_insert_new_docstring` raises `DefinitionNotFoundError` instead of
rewriting, and the round trip does not produce `"Hello"`. -/
theorem c6_counterexample :
    c6RoundTrip "def f(x=(1,2)):\n    return x".toList "f".toList 0 = none ∧
      (none : Option (List Char)) ≠ some "Hello".toList :=
  ⟨by decide, by decide⟩

/-- A class-less function node used by the C7 and C8 examples. -/
def plainNode : DocNode :=
  ⟨"f".toList, 0, none, none, "def f():\n    return 1".toList, none,
    "def f():\n    return 1".toList⟩

/-- Counterexample to C7: staging `a """ b` (whose normalised form keeps an
interior `"""`) and inserting twice does not reproduce the single-insert
buffers: the second call's lazy docstring match stops at the interior
delimiter and replaces the wrong span, duplicating text. -/
theorem c7_counterexample :
    ((addNewDocstring plainNode (.pystr "a \"\"\" b".toList)).bind
      (fun n1 => (insertNewDocstring n1 88 4).bind
        (fun n2 => (insertNewDocstring n2 88 4).map
          (fun n3 => n3 == n2)))) = .ok false := rfl

/-! ## C8: error taxonomy -/

/-- The usage errors of the spec's taxonomy. -/
def isUsageError (e : PyError) : Prop :=
  e = .notStaged ∨ e = .nonStringDocstring ∨ e = .nonStringSummary ∨
    ∃ s, e = .invalidInto s

/-- The data-dependent analysis failures of the spec's taxonomy. -/
def isAnalysisError (e : PyError) : Prop :=
  (∃ n c l, e = .ambiguousCall n c l) ∨ e = .nameExtraction

/-- C8 as claimed: every usage error's exception class differs from every
analysis failure's exception class. -/
def c8Claim : Prop :=
  ∀ e1 e2, isUsageError e1 → isAnalysisError e2 → e1.kind ≠ e2.kind

/-- Counterexample to C8: inserting before staging raises `RuntimeError`,
exactly the class the ambiguity failure uses, so the two classes are not
distinguishable by exception type. -/
theorem c8_counterexample :
    insertNewDocstringInto plainNode 88 4 "function" = .error .notStaged ∧
    resolveDeferredOne
        [(⟨"g", "x.py", 1⟩, []), (⟨"g", "y.py", 1⟩, []),
          (⟨"m", "z.py", 1⟩, [])] (⟨"m", "z.py", 1⟩, "g") =
      .error (.ambiguousCall "g" ⟨"m", "z.py", 1⟩
        [⟨"g", "x.py", 1⟩, ⟨"g", "y.py", 1⟩]) ∧
    PyError.kind .notStaged =
      PyError.kind (.ambiguousCall "g" ⟨"m", "z.py", 1⟩
        [⟨"g", "x.py", 1⟩, ⟨"g", "y.py", 1⟩]) ∧
    ¬ c8Claim := by
  refine ⟨rfl, rfl, rfl, ?_⟩
  intro h
  exact h .notStaged (.ambiguousCall "g" ⟨"m", "z.py", 1⟩
      [⟨"g", "x.py", 1⟩, ⟨"g", "y.py", 1⟩])
    (Or.inl rfl) (Or.inl ⟨_, _, _, rfl⟩) rfl

/-! ### Scanner lemmas for the canonical header shape -/

/-- `def NAME(PARAMS):` -/
def defHeaderC (name params : List Char) : List Char :=
  'd' :: 'e' :: 'f' :: ' ' :: (name ++ '(' :: (params ++ [')', ':']))

/-- Identifier characters: ASCII letters, digits, underscore. -/
def isIdentChar (c : Char) : Bool := c.isAlpha || c.isDigit || c = '_'

lemma isPrefixOf_append_self (l r : List Char) :
    l.isPrefixOf (l ++ r) = true := by
  rw [List.isPrefixOf_iff_prefix]
  exact List.prefix_append l r

lemma takeWhile_break {p : Char → Bool} :
    ∀ l r : List Char, (∀ c ∈ l, p c = true) →
      (∀ x, r.head? = some x → p x = false) →
      (l ++ r).takeWhile p = l := by
  intro l
  induction l with
  | nil =>
    intro r _ hr
    cases r with
    | nil => rfl
    | cons x rs => simp [List.takeWhile_cons, hr x rfl]
  | cons c cl ih =>
    intro r hl hr
    simp only [List.cons_append, List.takeWhile_cons,
      hl c (List.mem_cons_self _ _), if_true]
    rw [ih r (fun c' hc' => hl c' (List.mem_cons_of_mem _ hc')) hr]

lemma dropWhile_break {p : Char → Bool} :
    ∀ l r : List Char, (∀ c ∈ l, p c = true) →
      (∀ x, r.head? = some x → p x = false) →
      (l ++ r).dropWhile p = r := by
  intro l
  induction l with
  | nil =>
    intro r _ hr
    cases r with
    | nil => rfl
    | cons x rs => simp [List.dropWhile_cons, hr x rfl]
  | cons c cl ih =>
    intro r hl hr
    simp only [List.cons_append, List.dropWhile_cons,
      hl c (List.mem_cons_self _ _), if_true]
    exact ih r (fun c' hc' => hl c' (List.mem_cons_of_mem _ hc')) hr

lemma drop_length_takeWhile (p : Char → Bool) (s : List Char) :
    s.drop (s.takeWhile p).length = s.dropWhile p := by
  nth_rewrite 2 [← List.takeWhile_append_dropWhile p s]
  exact List.drop_left _ _

lemma head?_append_ne_nil {l : List Char} (r : List Char) (h : l ≠ []) :
    (l ++ r).head? = l.head? := by
  cases l with
  | nil => exact absurd rfl h
  | cons c cl => rfl

lemma pySpace_not_identChar {c : Char} (h : isPySpace c = true) :
    isIdentChar c = false := by
  simp only [isPySpace, Bool.or_eq_true, decide_eq_true_eq] at h
  rcases h with ((((h | h) | h) | h) | h) | h <;> subst h <;> decide

lemma identChar_not_pySpace {c : Char} (h : isIdentChar c = true) :
    isPySpace c = false := by
  cases hps : isPySpace c with
  | false => rfl
  | true =>
    rw [pySpace_not_identChar hps] at h
    exact Bool.noConfusion h

lemma matchAnnColon_colon (s : List Char) :
    matchAnnColon (':' :: s) = some ([':'], s) := by
  simp [matchAnnColon, List.isPrefixOf]

/-- On a canonical header (`def NAME(PARAMS):` with an identifier name and
a `)`-free parameter list), the pattern matches with group 1 equal to the
header and group 2 given by the docstring-literal scan of the suffix. -/
lemma matchHere_canonical (name params suffix : List Char)
    (hne : name ≠ []) (hid : ∀ c ∈ name, isIdentChar c = true)
    (hpar : ∀ c ∈ params, c ≠ ')') :
    matchHere name (defHeaderC name params ++ suffix) =
      some (defHeaderC name params,
        match matchDocstringLit suffix with
        | some (lit, s8) => (some lit, s8)
        | none => (none, suffix)) := by
  have hcode : defHeaderC name params ++ suffix =
      'd' :: 'e' :: 'f' :: ' ' ::
        (name ++ '(' :: (params ++ ')' :: ':' :: suffix)) := by
    simp [defHeaderC]
  rw [hcode]
  have hnhead : ∀ x, (name ++ '(' :: (params ++ ')' :: ':' :: suffix)).head? =
      some x → isPySpace x = false := by
    intro x hx
    rw [head?_append_ne_nil _ hne] at hx
    cases name with
    | nil => exact absurd rfl hne
    | cons n0 nt =>
      simp only [List.head?_cons, Option.some_inj] at hx
      subst hx
      exact identChar_not_pySpace (hid n0 (List.mem_cons_self _ _))
  have hws1 : (name ++ '(' :: (params ++ ')' :: ':' :: suffix)).takeWhile
      isPySpace = [] := by
    have := takeWhile_break (p := isPySpace) []
      (name ++ '(' :: (params ++ ')' :: ':' :: suffix)) (by intro c hc; cases hc)
      hnhead
    simpa using this
  have hparams : (params ++ ')' :: ':' :: suffix).takeWhile notCloseParen =
      params :=
    takeWhile_break params (')' :: ':' :: suffix)
      (fun c hc => by simp [notCloseParen, hpar c hc])
      (by intro x hx; simp only [List.head?_cons, Option.some_inj] at hx;
          subst hx; decide)
  simp only [matchHere, List.drop_succ_cons, List.drop_zero,
    List.takeWhile_cons]
  rw [show (['d', 'e', 'f'].isPrefixOf
      ('d' :: 'e' :: 'f' :: ' ' ::
        (name ++ '(' :: (params ++ ')' :: ':' :: suffix)))) = true
    from by simp [List.isPrefixOf]]
  simp only [if_true]
  rw [show isPySpace ' ' = true from rfl]
  simp only [if_true, hws1]
  simp only [List.length_cons, List.length_nil, List.drop_succ_cons,
    List.drop_zero]
  rw [isPrefixOf_append_self]
  simp only [if_true, List.drop_left]
  rw [if_neg (by decide : ¬ ([' '] : List Char) = [])]
  rw [show List.takeWhile isPySpace ('(' :: (params ++ ')' :: ':' :: suffix)) =
    [] from rfl]
  simp only [List.length_nil, List.drop_zero]
  rw [hparams, List.drop_left]
  simp only []
  rw [show List.takeWhile isPySpace (':' :: suffix) = [] from rfl]
  simp only [List.length_nil, List.drop_zero, matchAnnColon_colon]
  cases hd : matchDocstringLit suffix with
  | none => simp [defHeaderC]
  | some r => cases r with
    | mk lit s8 => simp [defHeaderC]

/-- The node of `plainNode` with a staged docstring, for exercising the
`into` validation. -/
def stagedNode : DocNode :=
  { plainNode with
    newDocstring := some (ensureTripleQuotes (dedentC "Hello".toList)) }

/-- C8 amended.  Of the usage errors only the invalid `into` target is
raised with a distinct exception class (`ValueError`); inserting before
staging and staging a non-string docstring or summary are `RuntimeError`,
the same class as the ambiguous-call and call-shape analysis failures, so
callers cannot distinguish the two classes by exception type alone. -/
theorem c8_amended_error_kinds :
    insertNewDocstringInto plainNode 88 4 "function" = .error .notStaged ∧
    addNewDocstring plainNode .nonString = .error .nonStringDocstring ∧
    addFunctionSummary plainNode .nonString = .error .nonStringSummary ∧
    insertNewDocstringInto stagedNode 88 4 "bogus" =
      .error (.invalidInto "bogus") ∧
    (PyError.invalidInto "bogus").kind = .valueKind ∧
    PyError.notStaged.kind = .runtimeKind ∧
    PyError.nonStringDocstring.kind = .runtimeKind ∧
    PyError.nonStringSummary.kind = .runtimeKind ∧
    (∀ n c l, (PyError.ambiguousCall n c l).kind = .runtimeKind) ∧
    PyError.nameExtraction.kind = .runtimeKind := by
  refine ⟨rfl, rfl, rfl, rfl, rfl, rfl, rfl, rfl, ?_, rfl⟩
  intro n c l
  rfl

lemma searchHeader_of_matchHere {name code : List Char}
    {h : List Char} {g2 : Option (List Char)} {rest : List Char}
    (hm : matchHere name code = some (h, g2, rest)) :
    searchHeader name code = some ([], h, g2, rest) := by
  cases code with
  | nil => simp [searchHeader, hm]
  | cons c cs => simp [searchHeader, hm]

lemma findClose_boundary (mid rest : List Char) (h : quoteD ∉ mid) :
    findClose tqD (mid ++ (tqD ++ rest)) = some (mid, rest) := by
  induction mid with
  | nil =>
    simp only [List.nil_append]
    rw [show tqD ++ rest = quoteD :: quoteD :: quoteD :: rest from rfl]
    simp [findClose, List.isPrefixOf, tqD]
  | cons c mid' ih =>
    have hc : ¬ (quoteD == c) = true := by
      simp only [beq_iff_eq]
      intro hh
      exact h (by rw [hh]; exact List.mem_cons_self _ _)
    have ih' := ih (fun hm => h (List.mem_cons_of_mem _ hm))
    simp only [List.cons_append, findClose, List.append_eq]
    rw [show (tqD.isPrefixOf (c :: (mid' ++ (tqD ++ rest)))) = false from by
      simp [tqD, List.isPrefixOf, hc]]
    simp only [Bool.false_eq_true, if_false, ih']

lemma matchTq_exact (ws mid rest : List Char)
    (hws : ∀ c ∈ ws, isPySpace c = true)
    (hmid : quoteD ∉ mid) :
    matchTq tqD (ws ++ (tqD ++ (mid ++ (tqD ++ rest)))) =
      some (ws ++ (tqD ++ (mid ++ tqD)), rest) := by
  simp only [matchTq]
  have hws' : (ws ++ (tqD ++ (mid ++ (tqD ++ rest)))).takeWhile isPySpace =
      ws :=
    takeWhile_break ws _ hws (by
      intro x hx
      rw [head?_append_ne_nil _ (by decide : tqD ≠ [])] at hx
      rw [show tqD.head? = some quoteD from rfl] at hx
      rw [← Option.some_inj.1 hx]
      decide)
  rw [hws', List.drop_left, isPrefixOf_append_self]
  simp only [if_true, List.drop_left, findClose_boundary mid rest hmid]
  simp [List.append_assoc]

lemma matchDocstringLit_exact (ws mid rest : List Char)
    (hws : ∀ c ∈ ws, isPySpace c = true)
    (hmid : quoteD ∉ mid) :
    matchDocstringLit (ws ++ (tqD ++ (mid ++ (tqD ++ rest)))) =
      some (ws ++ (tqD ++ (mid ++ tqD)), rest) := by
  unfold matchDocstringLit
  rw [matchTq_exact ws mid rest hws hmid]

lemma matchTq_none (tq : List Char) (s : List Char)
    (htq : tq.isPrefixOf (s.dropWhile isPySpace) = false) :
    matchTq tq s = none := by
  simp only [matchTq]
  rw [drop_length_takeWhile, htq]
  simp

lemma matchDocstringLit_none (s : List Char)
    (hD : tqD.isPrefixOf (s.dropWhile isPySpace) = false)
    (hS : tqS.isPrefixOf (s.dropWhile isPySpace) = false) :
    matchDocstringLit s = none := by
  unfold matchDocstringLit
  rw [matchTq_none tqD s hD, matchTq_none tqS s hS]

lemma insert_fresh (name params body W : List Char)
    (hne : name ≠ []) (hid : ∀ c ∈ name, isIdentChar c = true)
    (hpar : ∀ c ∈ params, c ≠ ')')
    (hbD : tqD.isPrefixOf (body.dropWhile isPySpace) = false)
    (hbS : tqS.isPrefixOf (body.dropWhile isPySpace) = false) :
    insertDocstringIntoCode name W (defHeaderC name params ++ nlChar :: body) =
      .ok (defHeaderC name params ++ nlChar :: (W ++ nlChar :: body)) := by
  have hdw : (nlChar :: body).dropWhile isPySpace = body.dropWhile isPySpace := by
    rw [List.dropWhile_cons]
    simp [show isPySpace nlChar = true from rfl]
  have hm := matchHere_canonical name params (nlChar :: body) hne hid hpar
  rw [matchDocstringLit_none (nlChar :: body) (by rw [hdw]; exact hbD)
    (by rw [hdw]; exact hbS)] at hm
  simp only [] at hm
  unfold insertDocstringIntoCode
  rw [searchHeader_of_matchHere hm]
  simp [List.append_assoc]

lemma defHeaderC_length_pos (name params : List Char) :
    defHeaderC name params ≠ [] := by
  simp [defHeaderC]

lemma insert_replace (name params body W ind mid : List Char)
    (hne : name ≠ []) (hid : ∀ c ∈ name, isIdentChar c = true)
    (hpar : ∀ c ∈ params, c ≠ ')')
    (hWd : W = ind ++ (tqD ++ (mid ++ tqD)))
    (hind : ∀ c ∈ ind, isPySpace c = true)
    (hmid : quoteD ∉ mid) :
    insertDocstringIntoCode name W
        (defHeaderC name params ++ nlChar :: (W ++ nlChar :: body)) =
      .ok (defHeaderC name params ++ nlChar :: (W ++ nlChar :: body)) := by
  have hsuffix : nlChar :: (W ++ nlChar :: body) =
      (nlChar :: ind) ++ (tqD ++ (mid ++ (tqD ++ (nlChar :: body)))) := by
    rw [hWd]
    simp [List.append_assoc]
  have hlit := matchDocstringLit_exact (nlChar :: ind) mid (nlChar :: body)
    (by
      intro c hc
      rcases List.mem_cons.1 hc with rfl | hc
      · rfl
      · exact hind c hc) hmid
  have hm := matchHere_canonical name params (nlChar :: (W ++ nlChar :: body))
    hne hid hpar
  rw [hsuffix, hlit] at hm
  simp only [] at hm
  unfold insertDocstringIntoCode
  rw [hsuffix, searchHeader_of_matchHere hm]
  simp only []
  rw [if_pos]
  · simp only [List.nil_append]
    congr 1
    rw [hWd]
    simp [List.append_assoc]
  · constructor
    · simp [defHeaderC]
    · simp [defHeaderC]


lemma identChar_ne_rparen {c : Char} (h : isIdentChar c = true) : c ≠ ')' := by
  intro hc
  subst hc
  exact Bool.noConfusion h

lemma parse_canonical (name params tail : List Char)
    (_hne : name ≠ []) (hid : ∀ c ∈ name, isIdentChar c = true)
    (hpar : ∀ c ∈ params, c ≠ ')') :
    parseDocstringOfDef (defHeaderC name params ++ nlChar :: tail) =
      extractDocstringLit (tail.dropWhile isPySpace) := by
  unfold parseDocstringOfDef
  have hassoc : defHeaderC name params ++ nlChar :: tail =
      'd' :: 'e' :: 'f' :: ' ' :: ((name ++ '(' :: params) ++
        ')' :: ':' :: nlChar :: tail) := by
    simp [defHeaderC]
  rw [hassoc]
  rw [show ("def ".toList) = ['d', 'e', 'f', ' '] from rfl]
  rw [show (['d', 'e', 'f', ' '].isPrefixOf
      ('d' :: 'e' :: 'f' :: ' ' :: ((name ++ '(' :: params) ++
        ')' :: ':' :: nlChar :: tail))) = true from by
    simp [List.isPrefixOf]]
  simp only [if_true]
  have hdrop : ('d' :: 'e' :: 'f' :: ' ' :: ((name ++ '(' :: params) ++
      ')' :: ':' :: nlChar :: tail)).dropWhile notCloseParen =
      ')' :: ':' :: nlChar :: tail := by
    have h1 : ∀ c ∈ 'd' :: 'e' :: 'f' :: ' ' :: (name ++ '(' :: params),
        notCloseParen c = true := by
      intro c hc
      rcases List.mem_cons.1 hc with rfl | hc
      · decide
      rcases List.mem_cons.1 hc with rfl | hc
      · decide
      rcases List.mem_cons.1 hc with rfl | hc
      · decide
      rcases List.mem_cons.1 hc with rfl | hc
      · decide
      rcases List.mem_append.1 hc with hc | hc
      · simp [notCloseParen, identChar_ne_rparen (hid c hc)]
      rcases List.mem_cons.1 hc with rfl | hc
      · decide
      · simp [notCloseParen, hpar c hc]
    have := dropWhile_break ('d' :: 'e' :: 'f' :: ' ' ::
        (name ++ '(' :: params)) (')' :: ':' :: nlChar :: tail) h1
      (by
        intro x hx
        simp only [List.head?_cons, Option.some_inj] at hx
        subst hx
        decide)
    simpa using this
  rw [hdrop]
  simp only []
  rw [List.dropWhile_cons]
  simp [show isPySpace nlChar = true from rfl]

lemma splitLinesC_no_nl : ∀ l : List Char, nlChar ∉ l → splitLinesC l = [l] := by
  intro l
  induction l with
  | nil => intro _; rfl
  | cons c rest ih =>
    intro h
    have hc : ¬ c = nlChar := fun hh => h (hh ▸ List.mem_cons_self _ _)
    have hr := ih (fun hm => h (List.mem_cons_of_mem _ hm))
    simp [splitLinesC, hc, hr]

lemma splitLinesC_append_nl : ∀ l r : List Char, nlChar ∉ l →
    splitLinesC (l ++ nlChar :: r) = l :: splitLinesC r := by
  intro l
  induction l with
  | nil =>
    intro r _
    simp [splitLinesC]
  | cons c cl ih =>
    intro r h
    have hc : ¬ c = nlChar := fun hh => h (hh ▸ List.mem_cons_self _ _)
    have hr := ih r (fun hm => h (List.mem_cons_of_mem _ hm))
    simp [splitLinesC, hc, hr]

lemma mem_indentStr {c : Char} {i col : Nat} (h : c ∈ indentStrC i col) :
    c = ' ' := List.eq_of_mem_replicate h

lemma indentStr_pySpace {i col : Nat} :
    ∀ c ∈ indentStrC i col, isPySpace c = true := by
  intro c hc
  rw [mem_indentStr hc]
  rfl

lemma indentStr_spaceChar {i col : Nat} :
    ∀ c ∈ indentStrC i col, isSpaceChar c = true := by
  intro c hc
  rw [mem_indentStr hc]
  rfl

lemma nl_not_mem_indentStr {i col : Nat} : nlChar ∉ indentStrC i col := by
  intro h
  have := mem_indentStr h
  exact absurd this (by decide)

lemma quoteD_not_mem_indentStr {i col : Nat} : quoteD ∉ indentStrC i col := by
  intro h
  have := mem_indentStr h
  exact absurd this (by decide)

lemma dropWhile_spaces_all {l : List Char}
    (h : ∀ c ∈ l, isSpaceChar c = true) : l.dropWhile isSpaceChar = [] := by
  have := dropWhile_break l [] h (fun x hx => Option.noConfusion hx)
  simpa using this

lemma wrap_hello (col : Nat) :
    wrapDocstring (ensureTripleQuotes (dedentC "Hello".toList)) 88 4 col =
      (indentStrC 4 col ++ tqD) ++ nlChar ::
        ((indentStrC 4 col ++ "Hello".toList) ++ nlChar ::
          (indentStrC 4 col ++ tqD)) := rfl

lemma cleandoc_mid (col : Nat) :
    cleandocC (nlChar :: ((indentStrC 4 col ++ "Hello".toList) ++
      nlChar :: indentStrC 4 col)) = "Hello".toList := by
  have hnotnl : nlChar ∉ indentStrC 4 col ++ "Hello".toList := by
    intro h
    rcases List.mem_append.1 h with h | h
    · exact nl_not_mem_indentStr h
    · exact absurd h (by decide)
  have hsplit : splitLinesC (nlChar :: ((indentStrC 4 col ++ "Hello".toList) ++
      nlChar :: indentStrC 4 col)) =
      [[], indentStrC 4 col ++ "Hello".toList, indentStrC 4 col] := by
    rw [show splitLinesC (nlChar :: ((indentStrC 4 col ++ "Hello".toList) ++
        nlChar :: indentStrC 4 col)) =
      [] :: splitLinesC ((indentStrC 4 col ++ "Hello".toList) ++
        nlChar :: indentStrC 4 col) from by simp [splitLinesC]]
    rw [splitLinesC_append_nl _ _ hnotnl]
    rw [splitLinesC_no_nl _ nl_not_mem_indentStr]
  unfold cleandocC
  rw [hsplit]
  simp only []
  have hdw1 : (indentStrC 4 col ++ "Hello".toList).dropWhile isSpaceChar =
      "Hello".toList :=
    dropWhile_break _ _ indentStr_spaceChar (by
      intro x hx
      rw [show ("Hello".toList).head? = some 'H' from rfl] at hx
      rw [← Option.some_inj.1 hx]
      decide)
  have hdw2 : (indentStrC 4 col).dropWhile isSpaceChar = [] :=
    dropWhile_spaces_all indentStr_spaceChar
  have htw : (indentStrC 4 col ++ "Hello".toList).takeWhile isSpaceChar =
      indentStrC 4 col :=
    takeWhile_break _ _ indentStr_spaceChar (by
      intro x hx
      rw [show ("Hello".toList).head? = some 'H' from rfl] at hx
      rw [← Option.some_inj.1 hx]
      decide)
  rw [show ([indentStrC 4 col ++ "Hello".toList, indentStrC 4 col].filter
      (fun l => l.dropWhile isSpaceChar ≠ [])) =
      [indentStrC 4 col ++ "Hello".toList] from by
    simp only [List.filter_cons, List.filter_nil]
    rw [hdw1, hdw2]
    simp]
  simp only [lineIndentLen, htw, List.map_cons, List.map_nil]
  rw [show ([(indentStrC 4 col).length].min?) = some (indentStrC 4 col).length
    from rfl]
  simp only [List.drop_left, List.drop_length]
  rw [show (([] : List Char).dropWhile isSpaceChar) = [] from rfl]
  decide

lemma extract_W0 (col : Nat) (body : List Char) :
    extractDocstringLit
      ((((indentStrC 4 col ++ tqD) ++ nlChar ::
          ((indentStrC 4 col ++ "Hello".toList) ++ nlChar ::
            (indentStrC 4 col ++ tqD))) ++ nlChar :: body).dropWhile
        isPySpace) = some "Hello".toList := by
  have hassoc : ((indentStrC 4 col ++ tqD) ++ nlChar ::
      ((indentStrC 4 col ++ "Hello".toList) ++ nlChar ::
        (indentStrC 4 col ++ tqD))) ++ nlChar :: body =
      indentStrC 4 col ++ (tqD ++
        ((nlChar :: ((indentStrC 4 col ++ "Hello".toList) ++
          nlChar :: indentStrC 4 col)) ++ (tqD ++ nlChar :: body))) := by
    simp [List.append_assoc]
  rw [hassoc]
  rw [dropWhile_break (indentStrC 4 col) _ indentStr_pySpace (by
    intro x hx
    rw [head?_append_ne_nil _ (by decide : tqD ≠ []),
      show tqD.head? = some quoteD from rfl] at hx
    rw [← Option.some_inj.1 hx]
    decide)]
  unfold extractDocstringLit
  rw [show (tqD.isPrefixOf (tqD ++
      ((nlChar :: ((indentStrC 4 col ++ "Hello".toList) ++
        nlChar :: indentStrC 4 col)) ++ (tqD ++ nlChar :: body)))) = true
    from isPrefixOf_append_self _ _]
  simp only [if_true]
  rw [show (tqD ++ ((nlChar :: ((indentStrC 4 col ++ "Hello".toList) ++
      nlChar :: indentStrC 4 col)) ++ (tqD ++ nlChar :: body))).drop 3 =
      (nlChar :: ((indentStrC 4 col ++ "Hello".toList) ++
        nlChar :: indentStrC 4 col)) ++ (tqD ++ nlChar :: body) from rfl]
  rw [findClose_boundary _ _ (by
    intro hq
    rcases List.mem_cons.1 hq with hq | hq
    · exact absurd hq (by decide)
    rcases List.mem_append.1 hq with hq | hq
    · rcases List.mem_append.1 hq with hq | hq
      · exact quoteD_not_mem_indentStr hq
      · exact absurd hq (by decide)
    rcases List.mem_cons.1 hq with hq | hq
    · exact absurd hq (by decide)
    · exact quoteD_not_mem_indentStr hq)]
  simp only []
  rw [cleandoc_mid]
  rfl

lemma insertInto_function_ok {node : DocNode} {staged W newCode : List Char}
    (hst : node.newDocstring = some staged)
    (hW : wrapDocstring staged 88 4 node.colOffset = W)
    (hins : insertDocstringIntoCode node.name W node.definition =
      .ok newCode) :
    insertNewDocstringInto node 88 4 "function" =
      .ok { node with definition := newCode } := by
  unfold insertNewDocstringInto
  rw [hst]
  simp only [String.reduceEq, reduceIte, or_true, or_false, false_or, or_self, if_true, if_false]
  rw [hW, hins]

lemma insertInto_file_ok {node : DocNode} {staged W newCode : List Char}
    (hst : node.newDocstring = some staged)
    (hW : wrapDocstring staged 88 4 node.colOffset = W)
    (hins : insertDocstringIntoCode node.name W node.fileContent =
      .ok newCode) :
    insertNewDocstringInto node 88 4 "file" =
      .ok { node with fileContent := newCode } := by
  unfold insertNewDocstringInto
  rw [hst]
  simp only [String.reduceEq, reduceIte, or_true, or_false, false_or, or_self, if_true, if_false]
  rw [hW, hins]

lemma insertNewDocstring_no_class {node n1 n2 : DocNode}
    (h1 : insertNewDocstringInto node 88 4 "function" = .ok n1)
    (h1c : n1.classDef = none)
    (h2 : insertNewDocstringInto n1 88 4 "file" = .ok n2) :
    insertNewDocstring node 88 4 = .ok n2 := by
  unfold insertNewDocstring
  rw [h1]
  simp only [h1c, h2]

/-- Amended C6: for a function text in the canonical header shape with a
parameter list free of close parens and a body that does not begin with a
docstring, staging "Hello" and inserting with width 88 and indent 4 makes
the re-parse of the function buffer yield exactly "Hello". -/
theorem c6_amended_round_trip (name params body : List Char) (col : Nat)
    (hne : name ≠ []) (hid : ∀ c ∈ name, isIdentChar c = true)
    (hpar : ∀ c ∈ params, c ≠ ')')
    (hbD : tqD.isPrefixOf (body.dropWhile isPySpace) = false)
    (hbS : tqS.isPrefixOf (body.dropWhile isPySpace) = false) :
    c6RoundTrip (defHeaderC name params ++ nlChar :: body) name col =
      some "Hello".toList := by
  have hf : insertNewDocstringInto
      (⟨name, col, some (ensureTripleQuotes (dedentC "Hello".toList)), none,
        defHeaderC name params ++ nlChar :: body, none,
        defHeaderC name params ++ nlChar :: body⟩ : DocNode) 88 4 "function" =
      .ok ⟨name, col, some (ensureTripleQuotes (dedentC "Hello".toList)), none,
        defHeaderC name params ++ nlChar ::
          (((indentStrC 4 col ++ tqD) ++ nlChar ::
            ((indentStrC 4 col ++ "Hello".toList) ++ nlChar ::
              (indentStrC 4 col ++ tqD))) ++ nlChar :: body), none,
        defHeaderC name params ++ nlChar :: body⟩ :=
    insertInto_function_ok rfl (wrap_hello col)
      (insert_fresh name params body _ hne hid hpar hbD hbS)
  have hfile : insertNewDocstringInto
      (⟨name, col, some (ensureTripleQuotes (dedentC "Hello".toList)), none,
        defHeaderC name params ++ nlChar ::
          (((indentStrC 4 col ++ tqD) ++ nlChar ::
            ((indentStrC 4 col ++ "Hello".toList) ++ nlChar ::
              (indentStrC 4 col ++ tqD))) ++ nlChar :: body), none,
        defHeaderC name params ++ nlChar :: body⟩ : DocNode) 88 4 "file" =
      .ok ⟨name, col, some (ensureTripleQuotes (dedentC "Hello".toList)), none,
        defHeaderC name params ++ nlChar ::
          (((indentStrC 4 col ++ tqD) ++ nlChar ::
            ((indentStrC 4 col ++ "Hello".toList) ++ nlChar ::
              (indentStrC 4 col ++ tqD))) ++ nlChar :: body), none,
        defHeaderC name params ++ nlChar ::
          (((indentStrC 4 col ++ tqD) ++ nlChar ::
            ((indentStrC 4 col ++ "Hello".toList) ++ nlChar ::
              (indentStrC 4 col ++ tqD))) ++ nlChar :: body)⟩ :=
    insertInto_file_ok rfl (wrap_hello col)
      (insert_fresh name params body _ hne hid hpar hbD hbS)
  have hl : insertNewDocstring
      (⟨name, col, some (ensureTripleQuotes (dedentC "Hello".toList)), none,
        defHeaderC name params ++ nlChar :: body, none,
        defHeaderC name params ++ nlChar :: body⟩ : DocNode) 88 4 =
      .ok ⟨name, col, some (ensureTripleQuotes (dedentC "Hello".toList)), none,
        defHeaderC name params ++ nlChar ::
          (((indentStrC 4 col ++ tqD) ++ nlChar ::
            ((indentStrC 4 col ++ "Hello".toList) ++ nlChar ::
              (indentStrC 4 col ++ tqD))) ++ nlChar :: body), none,
        defHeaderC name params ++ nlChar ::
          (((indentStrC 4 col ++ tqD) ++ nlChar ::
            ((indentStrC 4 col ++ "Hello".toList) ++ nlChar ::
              (indentStrC 4 col ++ tqD))) ++ nlChar :: body)⟩ :=
    insertNewDocstring_no_class hf rfl hfile
  unfold c6RoundTrip
  simp only []
  rw [show addNewDocstring
      (⟨name, col, none, none, defHeaderC name params ++ nlChar :: body, none,
        defHeaderC name params ++ nlChar :: body⟩ : DocNode)
      (.pystr "Hello".toList) =
      .ok ⟨name, col, some (ensureTripleQuotes (dedentC "Hello".toList)), none,
        defHeaderC name params ++ nlChar :: body, none,
        defHeaderC name params ++ nlChar :: body⟩ from rfl]
  simp only []
  rw [hl]
  simp only []
  exact (parse_canonical name params
      ((((indentStrC 4 col ++ tqD) ++ nlChar ::
        ((indentStrC 4 col ++ "Hello".toList) ++ nlChar ::
          (indentStrC 4 col ++ tqD)))) ++ nlChar :: body) hne hid hpar).trans
    (extract_W0 col body)

/-- Witness for the amended C6 at a concrete function text. -/
theorem c6_amended_round_trip_witness :
    c6RoundTrip (defHeaderC "f".toList "x".toList ++
        nlChar :: "    return x".toList) "f".toList 0 =
      some "Hello".toList :=
  c6_amended_round_trip "f".toList "x".toList "    return x".toList 0
    (by decide) (by decide) (by decide) (by decide) (by decide)

/-- Amended C7: for a class-less node in the canonical header shape whose
wrap renders as whitespace indentation, an opening triple quote, interior
text free of double-quote characters, and a closing triple quote, a first
insertion succeeds and a second insertion matches the literal just
inserted and returns the node unchanged. -/
theorem c7_amended_idempotent (name params body S ind mid : List Char)
    (col : Nat)
    (hne : name ≠ []) (hid : ∀ c ∈ name, isIdentChar c = true)
    (hpar : ∀ c ∈ params, c ≠ ')')
    (hbD : tqD.isPrefixOf (body.dropWhile isPySpace) = false)
    (hbS : tqS.isPrefixOf (body.dropWhile isPySpace) = false)
    (hWd : wrapDocstring S 88 4 col = ind ++ (tqD ++ (mid ++ tqD)))
    (hind : ∀ c ∈ ind, isPySpace c = true)
    (hmid : quoteD ∉ mid) :
    ∃ n1, insertNewDocstring (⟨name, col, some S, none,
        defHeaderC name params ++ nlChar :: body, none,
        defHeaderC name params ++ nlChar :: body⟩ : DocNode) 88 4 =
          .ok n1 ∧
      insertNewDocstring n1 88 4 = .ok n1 := by
  have hf1 : insertNewDocstringInto
      (⟨name, col, some S, none,
        defHeaderC name params ++ nlChar :: body, none,
        defHeaderC name params ++ nlChar :: body⟩ : DocNode) 88 4 "function" =
      .ok ⟨name, col, some S, none,
        defHeaderC name params ++ nlChar ::
          ((ind ++ (tqD ++ (mid ++ tqD))) ++ nlChar :: body), none,
        defHeaderC name params ++ nlChar :: body⟩ :=
    insertInto_function_ok rfl hWd
      (insert_fresh name params body _ hne hid hpar hbD hbS)
  have hfile1 : insertNewDocstringInto
      (⟨name, col, some S, none,
        defHeaderC name params ++ nlChar ::
          ((ind ++ (tqD ++ (mid ++ tqD))) ++ nlChar :: body), none,
        defHeaderC name params ++ nlChar :: body⟩ : DocNode) 88 4 "file" =
      .ok ⟨name, col, some S, none,
        defHeaderC name params ++ nlChar ::
          ((ind ++ (tqD ++ (mid ++ tqD))) ++ nlChar :: body), none,
        defHeaderC name params ++ nlChar ::
          ((ind ++ (tqD ++ (mid ++ tqD))) ++ nlChar :: body)⟩ :=
    insertInto_file_ok rfl hWd
      (insert_fresh name params body _ hne hid hpar hbD hbS)
  have hf2 : insertNewDocstringInto
      (⟨name, col, some S, none,
        defHeaderC name params ++ nlChar ::
          ((ind ++ (tqD ++ (mid ++ tqD))) ++ nlChar :: body), none,
        defHeaderC name params ++ nlChar ::
          ((ind ++ (tqD ++ (mid ++ tqD))) ++ nlChar :: body)⟩ : DocNode)
        88 4 "function" =
      .ok ⟨name, col, some S, none,
        defHeaderC name params ++ nlChar ::
          ((ind ++ (tqD ++ (mid ++ tqD))) ++ nlChar :: body), none,
        defHeaderC name params ++ nlChar ::
          ((ind ++ (tqD ++ (mid ++ tqD))) ++ nlChar :: body)⟩ :=
    insertInto_function_ok rfl hWd
      (insert_replace name params body _ ind mid hne hid hpar rfl hind hmid)
  have hfile2 : insertNewDocstringInto
      (⟨name, col, some S, none,
        defHeaderC name params ++ nlChar ::
          ((ind ++ (tqD ++ (mid ++ tqD))) ++ nlChar :: body), none,
        defHeaderC name params ++ nlChar ::
          ((ind ++ (tqD ++ (mid ++ tqD))) ++ nlChar :: body)⟩ : DocNode)
        88 4 "file" =
      .ok ⟨name, col, some S, none,
        defHeaderC name params ++ nlChar ::
          ((ind ++ (tqD ++ (mid ++ tqD))) ++ nlChar :: body), none,
        defHeaderC name params ++ nlChar ::
          ((ind ++ (tqD ++ (mid ++ tqD))) ++ nlChar :: body)⟩ :=
    insertInto_file_ok rfl hWd
      (insert_replace name params body _ ind mid hne hid hpar rfl hind hmid)
  exact ⟨⟨name, col, some S, none,
      defHeaderC name params ++ nlChar ::
        ((ind ++ (tqD ++ (mid ++ tqD))) ++ nlChar :: body), none,
      defHeaderC name params ++ nlChar ::
        ((ind ++ (tqD ++ (mid ++ tqD))) ++ nlChar :: body)⟩,
    insertNewDocstring_no_class hf1 rfl hfile1,
    insertNewDocstring_no_class hf2 rfl hfile2⟩

/-- Witness for the amended C7 at a concrete node. -/
theorem c7_amended_idempotent_witness :
    ∃ n1, insertNewDocstring (⟨"f".toList, 0,
        some (ensureTripleQuotes (dedentC "Hello".toList)), none,
        defHeaderC "f".toList "x".toList ++ nlChar :: "    return x".toList,
        none,
        defHeaderC "f".toList "x".toList ++
          nlChar :: "    return x".toList⟩ : DocNode) 88 4 = .ok n1 ∧
      insertNewDocstring n1 88 4 = .ok n1 :=
  c7_amended_idempotent "f".toList "x".toList "    return x".toList
    (ensureTripleQuotes (dedentC "Hello".toList)) "    ".toList
    (nlChar :: ("    Hello".toList ++ nlChar :: "    ".toList)) 0
    (by decide) (by decide) (by decide) (by decide) (by decide)
    (by decide) (by decide) (by decide)
end DocWriter
